import Mathlib

/-!
Verification of the string-art generator (`src/main.rs`) against its
natural-language specification.

The program is embedded shallowly.  `f32` values are modelled by the type `F`
below: a rational number, one of the two infinities, or NaN.  Arithmetic on
finite values is exact rational arithmetic (the rounding of finite IEEE
operations is not modelled); the special values follow the IEEE-754 rules for
the operations the source performs.  The only division by zero the source can
perform has the exact denominator `x2 - x1 = +0.0`, so `fdiv` treats a zero
divisor as positive zero.  `f32::sqrt` of a finite non-negative value is
embedded by a fixed rational under-approximation `ratSqrt`; no theorem in this
file depends on the finite value it returns.

Grids are embedded as functions `row → column → F` (the source writes
`grid[y][x]`), and the per-pixel loops of the source become folds over the
pixel list in the source's iteration order.

Where ulp-level effects of `f32` rounding matter (the symmetry of the chord
mask in the anchor pair), a second, correctly rounded model of the mask
computation is used: `roundF32` implements IEEE-754 binary32
round-to-nearest-even on rationals in the normal range, and
`generate_line_maskF32` applies it to every intermediate result of
`generate_line_mask`.
-/

namespace StringArt

/-- An `f32` value: NaN, a signed infinity (`inf true` is `+∞`), or a finite
value represented exactly as a rational. -/
inductive F where
  | nan : F
  | inf (pos : Bool) : F
  | fin (q : ℚ) : F
deriving DecidableEq, BEq

/-- IEEE negation. -/
def fneg : F → F
  | .nan => .nan
  | .inf p => .inf (!p)
  | .fin q => .fin (-q)

/-- IEEE addition (finite part exact). -/
def fadd : F → F → F
  | .nan, _ => .nan
  | _, .nan => .nan
  | .inf p, .inf q => if p = q then .inf p else .nan
  | .inf p, .fin _ => .inf p
  | .fin _, .inf p => .inf p
  | .fin a, .fin b => .fin (a + b)

/-- IEEE subtraction: `a - b = a + (-b)`. -/
def fsub (a b : F) : F := fadd a (fneg b)

/-- IEEE multiplication (finite part exact). -/
def fmul : F → F → F
  | .nan, _ => .nan
  | _, .nan => .nan
  | .inf p, .inf q => .inf (p == q)
  | .inf p, .fin b => if b = 0 then .nan else .inf (p == decide (0 < b))
  | .fin a, .inf q => if a = 0 then .nan else .inf (q == decide (0 < a))
  | .fin a, .fin b => .fin (a * b)

/-- IEEE division (finite part exact).  A zero divisor is treated as `+0.0`,
which is the only zero divisor the source can produce (`x2 - x1` with
`x2 = x1`). -/
def fdiv : F → F → F
  | .nan, _ => .nan
  | _, .nan => .nan
  | .inf _, .inf _ => .nan
  | .inf p, .fin b => .inf (p == decide (0 ≤ b))
  | .fin _, .inf _ => .fin 0
  | .fin a, .fin b =>
      if b = 0 then (if a = 0 then .nan else .inf (decide (0 < a)))
      else .fin (a / b)

/-- IEEE absolute value. -/
def fabs : F → F
  | .nan => .nan
  | .inf _ => .inf true
  | .fin q => .fin |q|

/-- IEEE `<`: false whenever an operand is NaN. -/
def fltB : F → F → Bool
  | .nan, _ => false
  | _, .nan => false
  | .inf p, .inf q => !p && q
  | .inf p, .fin _ => !p
  | .fin _, .inf q => q
  | .fin a, .fin b => decide (a < b)

/-- IEEE `≤`: false whenever an operand is NaN. -/
def fleB : F → F → Bool
  | .nan, _ => false
  | _, .nan => false
  | .inf p, .inf q => !p || q
  | .inf p, .fin _ => !p
  | .fin _, .inf q => q
  | .fin a, .fin b => decide (a ≤ b)

/-- Rust's `f32::max`: returns the other operand when one is NaN. -/
def fmaxR (a b : F) : F :=
  match a, b with
  | .nan, b => b
  | a, .nan => a
  | a, b => if fltB a b then b else a

/-- Rust's `f32::min`: returns the other operand when one is NaN. -/
def fminR (a b : F) : F :=
  match a, b with
  | .nan, b => b
  | a, .nan => a
  | a, b => if fltB b a then b else a

/-- Fixed rational under-approximation of the square root of a non-negative
rational, used to embed `f32::sqrt` on finite values. -/
def ratSqrt (q : ℚ) : ℚ :=
  (Nat.sqrt (q.num.toNat * q.den * 2 ^ 40) : ℚ) / ((q.den : ℚ) * 2 ^ 20)

/-- IEEE square root; negative finite arguments give NaN. -/
def fsqrt : F → F
  | .nan => .nan
  | .inf p => if p then .inf true else .nan
  | .fin q => if q < 0 then .nan else .fin (ratSqrt q)

/-- `x * x`, embedding `.powi(2)`. -/
def fpow2 (a : F) : F := fmul a a

/- Constants of the source (`src/main.rs`). -/

/-- `SIZE`: side of the square output image in pixels. -/
def SIZE : ℕ := 300

/-- `NUM_SCREWS`: number of anchors around the circle. -/
def NUM_SCREWS : ℕ := 271

/-- `SLOW_BETTER_MODE`: whether every start anchor is considered each
iteration. -/
def SLOW_BETTER_MODE : Bool := false

/-- `CROP_TO_CIRCLE`: whether the image is cropped to the inscribed disk. -/
def CROP_TO_CIRCLE : Bool := true

/-- `DELTA_DIFF_THRESHOLD`: lower bound on the change in closeness. -/
def DELTA_DIFF_THRESHOLD : F := .fin (-(1 / 2))

/-- `point_profile`: resulting pixel darkness from the distance to the line,
`(0.6 - distance.abs()).max(0.0).min(0.05)`. -/
def point_profile (distance : F) : F :=
  fminR (fmaxR (fsub (.fin (6 / 10)) (fabs distance)) (.fin 0)) (.fin (5 / 100))

/-- The slope `m = (y2 - y1) / (x2 - x1)` computed by `generate_line_mask`. -/
def slopeM (p1 p2 : ℚ × ℚ) : F := fdiv (.fin (p2.2 - p1.2)) (.fin (p2.1 - p1.1))

/-- The intercept `c = y1 - m * x1` computed by `generate_line_mask`. -/
def interceptC (p1 p2 : ℚ × ℚ) : F :=
  fsub (.fin p1.2) (fmul (slopeM p1 p2) (.fin p1.1))

/-- The distance value `(m * x - y + c).abs() / (m * m + 1.0).sqrt()` computed
by `generate_line_mask` for the pixel `(x, y)`. -/
def lineDist (p1 p2 : ℚ × ℚ) (x y : ℕ) : F :=
  fdiv
    (fabs (fadd (fsub (fmul (slopeM p1 p2) (.fin (x : ℚ))) (.fin (y : ℚ)))
      (interceptC p1 p2)))
    (fsqrt (fadd (fmul (slopeM p1 p2) (slopeM p1 p2)) (.fin 1)))

/-- The crop test of `generate_line_mask`:
`(x - SIZE/2)^2 + (y - SIZE/2)^2 > (SIZE/2)^2` (exact in `f32` for the integer
pixel coordinates involved). -/
def outsideCircle (x y : ℕ) : Bool :=
  decide (((x : ℚ) - (SIZE : ℚ) / 2) ^ 2 + ((y : ℚ) - (SIZE : ℚ) / 2) ^ 2 >
    ((SIZE : ℚ) / 2) ^ 2)

/-- `generate_line_mask` as a pixel function: the value of `mask[y][x]` for
the chord between anchors `i` and `j` of the table `screws`. -/
def generate_line_mask (i j : ℕ) (screws : ℕ → ℚ × ℚ) (y x : ℕ) : F :=
  if outsideCircle x y && CROP_TO_CIRCLE then .fin 0
  else point_profile (lineDist (screws i) (screws j) x y)

/- The anchor table. -/

/-- The anchor table produced by `generate_screw_locations` with
`CROP_TO_CIRCLE = true`: the k-th anchor is
`(round(S/2 + cos(2 pi k / N) * S/2), round(S/2 + sin(2 pi k / N) * S/2))`
computed in `f32`.  The cosine and sine are external library calls, so the
rounded integer coordinates are precomputed here; every value is at least
1.8e-4 away from a rounding tie, far beyond the error of any conforming
`f32` trigonometric library. -/
def screwCoords : List (ℚ × ℚ) :=
  [    (300, 150), (300, 153), (300, 157), (300, 160), (299, 164), (299, 167),
    (299, 171), (298, 174), (297, 178), (297, 181), (296, 184), (295, 188),
    (294, 191), (293, 195), (292, 198), (291, 201), (290, 204), (288, 208),
    (287, 211), (286, 214), (284, 217), (283, 220), (281, 223), (279, 226),
    (277, 229), (275, 232), (274, 235), (272, 238), (269, 241), (267, 243),
    (265, 246), (263, 249), (261, 251), (258, 254), (256, 256), (253, 259),
    (251, 261), (248, 263), (245, 266), (243, 268), (240, 270), (237, 272),
    (234, 274), (231, 276), (228, 278), (226, 280), (222, 281), (219, 283),
    (216, 285), (213, 286), (210, 287), (207, 289), (204, 290), (200, 291),
    (197, 292), (194, 293), (190, 294), (187, 295), (184, 296), (180, 297),
    (177, 298), (173, 298), (170, 299), (166, 299), (163, 299), (160, 300),
    (156, 300), (153, 300), (149, 300), (146, 300), (142, 300), (139, 300),
    (135, 299), (132, 299), (128, 298), (125, 298), (121, 297), (118, 297),
    (115, 296), (111, 295), (108, 294), (105, 293), (101, 292), (98, 291),
    (95, 289), (92, 288), (88, 287), (85, 285), (82, 284), (79, 282),
    (76, 280), (73, 279), (70, 277), (67, 275), (64, 273), (61, 271),
    (59, 269), (56, 267), (53, 265), (51, 262), (48, 260), (45, 258),
    (43, 255), (41, 253), (38, 250), (36, 247), (34, 245), (32, 242),
    (29, 239), (27, 236), (25, 234), (24, 231), (22, 228), (20, 225),
    (18, 222), (17, 219), (15, 216), (14, 212), (12, 209), (11, 206),
    (10, 203), (8, 199), (7, 196), (6, 193), (5, 190), (4, 186),
    (4, 183), (3, 179), (2, 176), (2, 173), (1, 169), (1, 166),
    (0, 162), (0, 159), (0, 155), (0, 152), (0, 148), (0, 145),
    (0, 141), (0, 138), (1, 134), (1, 131), (2, 127), (2, 124),
    (3, 121), (4, 117), (4, 114), (5, 110), (6, 107), (7, 104),
    (8, 101), (10, 97), (11, 94), (12, 91), (14, 88), (15, 84),
    (17, 81), (18, 78), (20, 75), (22, 72), (24, 69), (25, 66),
    (27, 64), (29, 61), (32, 58), (34, 55), (36, 53), (38, 50),
    (41, 47), (43, 45), (45, 42), (48, 40), (51, 38), (53, 35),
    (56, 33), (59, 31), (61, 29), (64, 27), (67, 25), (70, 23),
    (73, 21), (76, 20), (79, 18), (82, 16), (85, 15), (88, 13),
    (92, 12), (95, 11), (98, 9), (101, 8), (105, 7), (108, 6),
    (111, 5), (115, 4), (118, 3), (121, 3), (125, 2), (128, 2),
    (132, 1), (135, 1), (139, 0), (142, 0), (146, 0), (149, 0),
    (153, 0), (156, 0), (160, 0), (163, 1), (166, 1), (170, 1),
    (173, 2), (177, 2), (180, 3), (184, 4), (187, 5), (190, 6),
    (194, 7), (197, 8), (200, 9), (204, 10), (207, 11), (210, 13),
    (213, 14), (216, 15), (219, 17), (222, 19), (226, 20), (228, 22),
    (231, 24), (234, 26), (237, 28), (240, 30), (243, 32), (245, 34),
    (248, 37), (251, 39), (253, 41), (256, 44), (258, 46), (261, 49),
    (263, 51), (265, 54), (267, 57), (269, 59), (272, 62), (274, 65),
    (275, 68), (277, 71), (279, 74), (281, 77), (283, 80), (284, 83),
    (286, 86), (287, 89), (288, 92), (290, 96), (291, 99), (292, 102),
    (293, 105), (294, 109), (295, 112), (296, 116), (297, 119), (297, 122),
    (298, 126), (299, 129), (299, 133), (299, 136), (300, 140), (300, 143),
    (300, 147)]

/-- The anchor table as a function, as used by the selector loop. -/
def screwTable : ℕ → ℚ × ℚ := fun k => screwCoords.getD k (0, 0)

/- The selector loop (`main`), embedded with the target grid (`ideal_image`)
and the anchor table as parameters. -/

/-- The pixel list `(x, y)` in the source's iteration order (`x` outer,
`y` inner). -/
def pixels : List (ℕ × ℕ) :=
  (List.range SIZE).flatMap fun x => (List.range SIZE).map fun y => (x, y)

/-- State of the closeness accumulation for one candidate chord. -/
structure ScoreState where
  closeness : F
  skip : Bool
deriving DecidableEq

/-- The summand `(ideal_image[y][x] - image[y][x] - mask[y][x]).powi(2)` added
to `closeness` at pixel `p = (x, y)`. -/
def scoreAddend (ideal : ℕ → ℕ → ℚ) (image mask : ℕ → ℕ → F) (p : ℕ × ℕ) : F :=
  fpow2 (fsub (fsub (.fin (ideal p.2 p.1)) (image p.2 p.1)) (mask p.2 p.1))

/-- One step of the scoring loop: once `skip` is set, the loop has broken out
and the state no longer changes; otherwise the pixel's summand is added and
the early-exit condition `old_closeness - closeness < DELTA_DIFF_THRESHOLD`
is evaluated. -/
def scoreStep (oldCloseness : F) (ideal : ℕ → ℕ → ℚ) (image mask : ℕ → ℕ → F)
    (s : ScoreState) (p : ℕ × ℕ) : ScoreState :=
  if s.skip then s
  else
    let c := fadd s.closeness (scoreAddend ideal image mask p)
    ⟨c, fltB (fsub oldCloseness c) DELTA_DIFF_THRESHOLD⟩

/-- The scoring loop for one candidate chord mask. -/
def score (oldCloseness : F) (ideal : ℕ → ℕ → ℚ) (image mask : ℕ → ℕ → F) :
    ScoreState :=
  pixels.foldl (scoreStep oldCloseness ideal image mask) ⟨.fin 0, false⟩

/-- The admissibility test of the source:
`(j as i32 - i as i32).abs() > NUM_SCREWS as i32 / 15`. -/
def sepOK (i j : ℕ) : Bool :=
  decide ((NUM_SCREWS : ℤ) / 15 < |(j : ℤ) - (i : ℤ)|)

/-- The inner `j` loop's admissible endpoints for start anchor `i`. -/
def candidates (i : ℕ) : List ℕ :=
  (List.range NUM_SCREWS).filter (fun j => sepOK i j)

/-- The start anchors considered in one iteration: all of them in slow mode,
only the current anchor in fast mode (`i..i+1`). -/
def iRange (cur : ℕ) : List ℕ :=
  if SLOW_BETTER_MODE then List.range NUM_SCREWS else [cur]

/-- The `permutations` list built in one iteration: for every admissible
candidate chord whose scoring loop did not skip, the tuple
`(i, j, closeness)` in push order. -/
def permutations (ideal : ℕ → ℕ → ℚ) (screws : ℕ → ℚ × ℚ)
    (image : ℕ → ℕ → F) (oldCloseness : F) (cur : ℕ) : List (ℕ × ℕ × F) :=
  (iRange cur).flatMap fun i =>
    (candidates i).filterMap fun j =>
      let st := score oldCloseness ideal image (generate_line_mask i j screws)
      if st.skip then none else some (i, j, st.closeness)

/-- The comparison used to sort `permutations` ascending by closeness
(`a.2.partial_cmp(&b.2)`): `a` precedes `b` unless `b.2 < a.2`. -/
def candLe (a b : ℕ × ℕ × F) : Bool := !(fltB b.2.2 a.2.2)

/-- Ordered insertion for the embedding of the source's stable
ascending-by-closeness sort. -/
def sortInsert (a : ℕ × ℕ × F) : List (ℕ × ℕ × F) → List (ℕ × ℕ × F)
  | [] => [a]
  | b :: l => if candLe a b then a :: b :: l else b :: sortInsert a l

/-- The sort of the `permutations` list.  On the NaN-free closeness values
the loop produces, this agrees with any comparison sort ascending by
closeness. -/
def sortPerms (l : List (ℕ × ℕ × F)) : List (ℕ × ℕ × F) :=
  l.foldr sortInsert []

/-- The re-scan loop over the sorted list: starting from `x = 0` and
`closeness = permutations[0].2`, while
`old_closeness - closeness < DELTA_DIFF_THRESHOLD` it increments `x`,
re-reads `closeness = permutations[x].2` and breaks once `x` reaches
`permutations.len() - 1`.  The fuel argument bounds the iteration count. -/
def scanAux (oldCloseness : F) (l : List (ℕ × ℕ × F)) : ℕ → ℕ → ℕ
  | 0, x => x
  | fuel + 1, x =>
      if fltB (fsub oldCloseness (l.getD x (0, 0, .fin 0)).2.2)
          DELTA_DIFF_THRESHOLD then
        if l.length - 1 ≤ x + 1 then x + 1
        else scanAux oldCloseness l fuel (x + 1)
      else x

/-- The final value of `x` after the re-scan loop. -/
def scanX (oldCloseness : F) (l : List (ℕ × ℕ × F)) : ℕ :=
  scanAux oldCloseness l l.length 0

/-- State of the selector loop: the working grid `image`, `old_closeness`,
the current anchor `i`, and a ghost counter of accepted chords. -/
structure LoopState where
  image : ℕ → ℕ → F
  oldCloseness : F
  current : ℕ
  accepted : ℕ

/-- Result of one iteration of the `while window.is_open()` loop: `halt` when
`permutations` is empty (the `break`), `panicked` for the
`panic!("x is not 0")` branch, or acceptance of a chord. -/
inductive Outcome where
  | halt : Outcome
  | panicked : Outcome
  | accept (chord : ℕ × ℕ) (next : LoopState) : Outcome

/-- The sorted `permutations` list built by one iteration. -/
def stepPerms (ideal : ℕ → ℕ → ℚ) (screws : ℕ → ℚ × ℚ) (s : LoopState) :
    List (ℕ × ℕ × F) :=
  sortPerms (permutations ideal screws s.image s.oldCloseness s.current)

/-- The entry `permutations[x]` selected by the re-scan. -/
def chosenOf (ideal : ℕ → ℕ → ℚ) (screws : ℕ → ℚ × ℚ) (s : LoopState) :
    ℕ × ℕ × F :=
  (stepPerms ideal screws s).getD
    (scanX s.oldCloseness (stepPerms ideal screws s)) (0, 0, .fin 0)

/-- One iteration of the selector loop: build and sort `permutations`, break
if empty, re-scan for the accepted index, panic if it is not `0`, and
otherwise apply the winning chord `(i, j)` (the applied mask is regenerated
with the arguments swapped, `generate_line_mask(j, i)`, exactly as in the
source's fast mode, which also sets the new current anchor to `j`). -/
def step (ideal : ℕ → ℕ → ℚ) (screws : ℕ → ℚ × ℚ) (s : LoopState) : Outcome :=
  if (stepPerms ideal screws s).isEmpty then .halt
  else if scanX s.oldCloseness (stepPerms ideal screws s) ≠ 0 then .panicked
  else
    .accept ((chosenOf ideal screws s).1, (chosenOf ideal screws s).2.1)
      { image := fun y' x' => fadd (s.image y' x')
          (generate_line_mask (chosenOf ideal screws s).2.1
            (chosenOf ideal screws s).1 screws y' x'),
        oldCloseness := (chosenOf ideal screws s).2.2,
        current := (chosenOf ideal screws s).2.1,
        accepted := s.accepted + 1 }

/-- The state at the head of the selector loop: all-zero working grid,
`old_closeness = 100000.0`, current anchor `i = 100`, nothing accepted. -/
def initialState : LoopState :=
  { image := fun _ _ => .fin 0,
    oldCloseness := .fin 100000,
    current := 100,
    accepted := 0 }

/-- The selector loop iterated `n` times from the initial state; an iteration
that halts or panics leaves the state unchanged. -/
def run (ideal : ℕ → ℕ → ℚ) (screws : ℕ → ℚ × ℚ) : ℕ → LoopState
  | 0 => initialState
  | n + 1 =>
      match step ideal screws (run ideal screws n) with
      | .accept _ s' => s'
      | _ => run ideal screws n

/-- The loss `L = sum over pixels of (ideal_image[y][x] - image[y][x])^2` of a
working grid. -/
def totalLoss (ideal : ℕ → ℕ → ℚ) (image : ℕ → ℕ → F) : F :=
  pixels.foldl (fun acc p => fadd acc (fpow2 (fsub (.fin (ideal p.2 p.1)) (image p.2 p.1)))) (.fin 0)

/-- The closeness sum of a candidate without the early-exit bookkeeping. -/
def plainScore (ideal : ℕ → ℕ → ℚ) (image mask : ℕ → ℕ → F) : F :=
  pixels.foldl (fun acc p => fadd acc (scoreAddend ideal image mask p)) (.fin 0)

/-- The all-zero target grid (an all-white input image). -/
def allZeroIdeal : ℕ → ℕ → ℚ := fun _ _ => 0

/-- The anchor table of the spec's vertical-chord scenario: anchor `0` at
`(S/2, 0)` and anchor `N/2 = 135` at `(S/2, S)`. -/
def vScrews : ℕ → ℚ × ℚ :=
  fun k => if k = 0 then (150, 0) else if k = 135 then (150, 300) else (0, 0)

/-- The saved pixel `(image[y][x] * 255.0) as u8`: a Rust float-to-integer
cast truncates toward zero and saturates to the target range; NaN casts
to `0`. -/
def savePixel (v : F) : ℕ :=
  match fmul v (.fin 255) with
  | .nan => 0
  | .inf p => if p then 255 else 0
  | .fin q => if q < 0 then 0 else min (Int.toNat ⌊q⌋) 255

/-- Modelled from the spec (section 4.5): the save mapping the spec claims,
`pixel = round(min(v, 1) * 255)`. -/
def spec_savePixel (v : ℚ) : ℤ := round (min v 1 * 255)

/-- Modelled from the spec (section 3): the circular distance
`min(|i - j|, N - |i - j|)` between two anchor indices. -/
def circularDistance (i j : ℕ) : ℕ :=
  min ((j : ℤ) - (i : ℤ)).natAbs (NUM_SCREWS - ((j : ℤ) - (i : ℤ)).natAbs)

/-- `MIN_SEP = floor(N / 15)`, the spec's minimum separation. -/
def MIN_SEP : ℕ := NUM_SCREWS / 15

/-- How the selector loop reacts to the result of the sink's frame update:
`.cont` to keep running, `.shutdown` for a graceful stop, `.panicked` for an
abort. -/
inductive FrameOutcome where
  | cont : FrameOutcome
  | shutdown : FrameOutcome
  | panicked : FrameOutcome
deriving DecidableEq, BEq

/-- The source's handling of the frame-update result:
`window.update_with_buffer(...).unwrap()` continues on `Ok` and panics on
`Err`. -/
def handleFrameUpdate (r : Except String Unit) : FrameOutcome :=
  match r with
  | .ok _ => .cont
  | .error _ => .panicked

/-- Whether an iteration outcome is the panic branch. -/
def isPanicked : Outcome → Bool
  | .panicked => true
  | _ => false

/-- Whether an iteration outcome accepted a chord. -/
def isAccepted : Outcome → Bool
  | .accept _ _ => true
  | _ => false

/-- The chord accepted by an iteration outcome, if any. -/
def chordOf : Outcome → Option (ℕ × ℕ)
  | .accept c _ => some c
  | _ => none

/-- Whether iteration `n` respects the loss-step bound: if it accepts a
chord, the loss of the updated grid exceeds the loss of the previous grid by
at most `1/2` (the magnitude of `DELTA_DIFF_THRESHOLD`). -/
def lossStepOK (ideal : ℕ → ℕ → ℚ) (screws : ℕ → ℚ × ℚ) (n : ℕ) : Bool :=
  match step ideal screws (run ideal screws n) with
  | .accept _ s' =>
      fleB (totalLoss ideal s'.image)
        (fadd (totalLoss ideal (run ideal screws n).image) (.fin (1 / 2)))
  | _ => true

/- Equation lemmas for the `F` operations. -/

/- A correctly rounded `f32` companion model.  The `F` model above performs
the finite arithmetic exactly; the definitions below perform the same
operations of `generate_line_mask` with IEEE-754 binary32
round-to-nearest-even applied to every intermediate result (within the
normal range, which covers every value arising in the evaluations proved
about them), so ulp-level effects of the source's `f32` arithmetic are
captured faithfully. -/

/-- Round a scaled significand to an integer with ties to even: the
round-to-nearest-even rule of IEEE-754 applied to `m` expressed in units in
the last place. -/
def roundMantissa (m : ℚ) : ℚ :=
  if m - ⌊m⌋ < 1 / 2 then (⌊m⌋ : ℚ)
  else if 1 / 2 < m - ⌊m⌋ then (⌊m⌋ : ℚ) + 1
  else if ⌊m⌋ % 2 = 0 then (⌊m⌋ : ℚ) else (⌊m⌋ : ℚ) + 1

/-- Round a positive rational to the nearest `f32` value: the significand
is scaled into `[2^23, 2^24)` and rounded to nearest, ties to even.  Valid
on the normal range, which covers every value in the evaluations below. -/
def roundF32Pos (a : ℚ) : ℚ :=
  if a = 0 then 0
  else roundMantissa (a / 2 ^ (Int.log 2 a - 23)) * 2 ^ (Int.log 2 a - 23)

/-- Round a rational to the nearest `f32` value; IEEE rounding commutes
with negation. -/
def roundF32 (q : ℚ) : ℚ :=
  if q < 0 then -roundF32Pos (-q) else roundF32Pos q

/-- `f32` addition: the exact sum, correctly rounded. -/
def addF32 (a b : ℚ) : ℚ := roundF32 (a + b)

/-- `f32` subtraction: the exact difference, correctly rounded. -/
def subF32 (a b : ℚ) : ℚ := roundF32 (a - b)

/-- `f32` multiplication: the exact product, correctly rounded. -/
def mulF32 (a b : ℚ) : ℚ := roundF32 (a * b)

/-- `f32` division: the exact quotient, correctly rounded (a zero divisor
is mapped to `0`; the evaluations below never divide by zero). -/
def divF32 (a b : ℚ) : ℚ := roundF32 (a / b)

/-- The exponent scaling for the `f32` square root: the argument is scaled
by an even power of two so that the root's significand lies in
`[2^23, 2^24)`. -/
def sqrtExp (s : ℚ) : ℤ :=
  if Int.log 2 s % 2 = 0 then Int.log 2 s / 2 - 23 else (Int.log 2 s - 1) / 2 - 23

/-- Round the square root of the scaled argument to an integer significand,
nearest first, ties to even. -/
def roundSqrtMantissa (r : ℚ) : ℚ :=
  if r < ((Nat.sqrt (Int.toNat ⌊r⌋) : ℚ) + 1 / 2) ^ 2 then (Nat.sqrt (Int.toNat ⌊r⌋) : ℚ)
  else if ((Nat.sqrt (Int.toNat ⌊r⌋) : ℚ) + 1 / 2) ^ 2 < r then (Nat.sqrt (Int.toNat ⌊r⌋) : ℚ) + 1
  else if Nat.sqrt (Int.toNat ⌊r⌋) % 2 = 0 then (Nat.sqrt (Int.toNat ⌊r⌋) : ℚ)
  else (Nat.sqrt (Int.toNat ⌊r⌋) : ℚ) + 1

/-- `f32` square root: the exact root, correctly rounded. -/
def sqrtF32 (s : ℚ) : ℚ :=
  if s ≤ 0 then 0 else roundSqrtMantissa (s / 4 ^ sqrtExp s) * 2 ^ sqrtExp s

/-- The slope `m = (y2 - y1) / (x2 - x1)` of `generate_line_mask` with
every operation rounded as in `f32`. -/
def slopeMF32 (p1 p2 : ℚ × ℚ) : ℚ := divF32 (subF32 p2.2 p1.2) (subF32 p2.1 p1.1)

/-- The intercept `c = y1 - m * x1` of `generate_line_mask` with every
operation rounded as in `f32`. -/
def interceptCF32 (p1 p2 : ℚ × ℚ) : ℚ :=
  subF32 p1.2 (mulF32 (slopeMF32 p1 p2) p1.1)

/-- The distance `(m * x - y + c).abs() / (m * m + 1.0).sqrt()` of
`generate_line_mask` with every operation rounded as in `f32`. -/
def lineDistF32 (p1 p2 : ℚ × ℚ) (x y : ℕ) : ℚ :=
  divF32
    |addF32 (subF32 (mulF32 (slopeMF32 p1 p2) (x : ℚ)) (y : ℚ)) (interceptCF32 p1 p2)|
    (sqrtF32 (addF32 (mulF32 (slopeMF32 p1 p2) (slopeMF32 p1 p2)) 1))

/-- `point_profile` in the rounded model: the literals `0.6` and `0.05`
stand for their nearest `f32` values and the subtraction is rounded. -/
def point_profileF32 (d : ℚ) : ℚ :=
  min (max (subF32 (roundF32 (6 / 10)) |d|) 0) (roundF32 (5 / 100))

/-- `generate_line_mask` as a pixel function in the rounded model: the
value of `mask[y][x]` for the chord from anchor `i` to anchor `j`. -/
def generate_line_maskF32 (i j : ℕ) (screws : ℕ → ℚ × ℚ) (y x : ℕ) : ℚ :=
  if outsideCircle x y && CROP_TO_CIRCLE then 0
  else point_profileF32 (lineDistF32 (screws i) (screws j) x y)

@[simp] theorem fneg_nan : fneg .nan = .nan := rfl

@[simp] theorem fneg_inf (p : Bool) : fneg (.inf p) = .inf (!p) := rfl

@[simp] theorem fneg_fin (q : ℚ) : fneg (.fin q) = .fin (-q) := rfl

@[simp] theorem fadd_nan_left (b : F) : fadd .nan b = .nan := by cases b <;> rfl

@[simp] theorem fadd_nan_right (a : F) : fadd a .nan = .nan := by cases a <;> rfl

@[simp] theorem fadd_inf_inf (p q : Bool) :
    fadd (.inf p) (.inf q) = if p = q then .inf p else .nan := rfl

@[simp] theorem fadd_inf_fin (p : Bool) (b : ℚ) : fadd (.inf p) (.fin b) = .inf p := rfl

@[simp] theorem fadd_fin_inf (a : ℚ) (p : Bool) : fadd (.fin a) (.inf p) = .inf p := rfl

@[simp] theorem fadd_fin_fin (a b : ℚ) : fadd (.fin a) (.fin b) = .fin (a + b) := rfl

@[simp] theorem fsub_fin_fin (a b : ℚ) : fsub (.fin a) (.fin b) = .fin (a - b) := by
  simp [fsub, sub_eq_add_neg]

@[simp] theorem fsub_nan_left (b : F) : fsub .nan b = .nan := by cases b <;> rfl

@[simp] theorem fsub_nan_right (a : F) : fsub a .nan = .nan := by cases a <;> rfl

@[simp] theorem fsub_fin_inf (a : ℚ) (p : Bool) : fsub (.fin a) (.inf p) = .inf (!p) := rfl

@[simp] theorem fsub_inf_fin (p : Bool) (b : ℚ) : fsub (.inf p) (.fin b) = .inf p := rfl

@[simp] theorem fsub_inf_inf (p q : Bool) :
    fsub (.inf p) (.inf q) = if p = !q then .inf p else .nan := rfl

@[simp] theorem fmul_nan_left (b : F) : fmul .nan b = .nan := by cases b <;> rfl

@[simp] theorem fmul_nan_right (a : F) : fmul a .nan = .nan := by cases a <;> rfl

@[simp] theorem fmul_inf_inf (p q : Bool) : fmul (.inf p) (.inf q) = .inf (p == q) := rfl

@[simp] theorem fmul_inf_fin (p : Bool) (b : ℚ) :
    fmul (.inf p) (.fin b) = if b = 0 then .nan else .inf (p == decide (0 < b)) := rfl

@[simp] theorem fmul_fin_inf (a : ℚ) (q : Bool) :
    fmul (.fin a) (.inf q) = if a = 0 then .nan else .inf (q == decide (0 < a)) := rfl

@[simp] theorem fmul_fin_fin (a b : ℚ) : fmul (.fin a) (.fin b) = .fin (a * b) := rfl

@[simp] theorem fdiv_nan_left (b : F) : fdiv .nan b = .nan := by cases b <;> rfl

@[simp] theorem fdiv_nan_right (a : F) : fdiv a .nan = .nan := by cases a <;> rfl

@[simp] theorem fdiv_inf_inf (p q : Bool) : fdiv (.inf p) (.inf q) = .nan := rfl

@[simp] theorem fdiv_fin_fin (a b : ℚ) :
    fdiv (.fin a) (.fin b) =
      if b = 0 then (if a = 0 then .nan else .inf (decide (0 < a))) else .fin (a / b) := rfl

@[simp] theorem fabs_nan : fabs .nan = .nan := rfl

@[simp] theorem fabs_inf (p : Bool) : fabs (.inf p) = .inf true := rfl

@[simp] theorem fabs_fin (q : ℚ) : fabs (.fin q) = .fin |q| := rfl

@[simp] theorem fltB_nan_left (b : F) : fltB .nan b = false := by cases b <;> rfl

@[simp] theorem fltB_nan_right (a : F) : fltB a .nan = false := by cases a <;> rfl

@[simp] theorem fltB_fin_fin (a b : ℚ) : fltB (.fin a) (.fin b) = decide (a < b) := rfl

@[simp] theorem fltB_inf_fin (p : Bool) (b : ℚ) : fltB (.inf p) (.fin b) = !p := rfl

@[simp] theorem fltB_fin_inf (a : ℚ) (q : Bool) : fltB (.fin a) (.inf q) = q := rfl

@[simp] theorem fleB_fin_fin (a b : ℚ) : fleB (.fin a) (.fin b) = decide (a ≤ b) := rfl

@[simp] theorem fsqrt_nan : fsqrt .nan = .nan := rfl

@[simp] theorem fsqrt_inf (p : Bool) : fsqrt (.inf p) = if p then .inf true else .nan := rfl

@[simp] theorem fsqrt_fin (q : ℚ) :
    fsqrt (.fin q) = if q < 0 then .nan else .fin (ratSqrt q) := rfl

@[simp] theorem fmaxR_nan_left (b : F) : fmaxR .nan b = b := by cases b <;> rfl

@[simp] theorem fmaxR_nan_right (a : F) : fmaxR a .nan = a := by cases a <;> rfl

@[simp] theorem fminR_nan_left (b : F) : fminR .nan b = b := by cases b <;> rfl

@[simp] theorem fminR_nan_right (a : F) : fminR a .nan = a := by cases a <;> rfl

@[simp] theorem fmaxR_fin_fin (a b : ℚ) :
    fmaxR (.fin a) (.fin b) = if a < b then .fin b else .fin a := by
  simp [fmaxR]

@[simp] theorem fminR_fin_fin (a b : ℚ) :
    fminR (.fin a) (.fin b) = if b < a then .fin b else .fin a := by
  simp [fminR]

@[simp] theorem fmaxR_inf_fin (p : Bool) (b : ℚ) :
    fmaxR (.inf p) (.fin b) = if p then .inf p else .fin b := by
  cases p <;> simp [fmaxR]

@[simp] theorem fminR_inf_fin (p : Bool) (b : ℚ) :
    fminR (.inf p) (.fin b) = if p then .fin b else .inf p := by
  cases p <;> simp [fminR]

@[simp] theorem fpow2_fin (a : ℚ) : fpow2 (.fin a) = .fin (a * a) := rfl

@[simp] theorem fpow2_nan : fpow2 .nan = .nan := rfl

/- Basic facts about `point_profile` and `generate_line_mask`. -/

/-- Whatever the distance argument (NaN and infinities included), the profile
is a finite value between `0` and `0.05`. -/
theorem point_profile_bound (d : F) :
    ∃ q : ℚ, point_profile d = .fin q ∧ 0 ≤ q ∧ q ≤ 5 / 100 := by
  unfold point_profile
  rcases h : fsub (.fin (6 / 10)) (fabs d) with _ | p | r
  · refine ⟨0, ?_, le_refl 0, by norm_num⟩
    simp only [fmaxR_nan_left, fminR_fin_fin]
    norm_num
  · cases p
    · refine ⟨0, ?_, le_refl 0, by norm_num⟩
      simp only [fmaxR_inf_fin, fminR_fin_fin]
      norm_num
    · refine ⟨5 / 100, ?_, by norm_num, le_refl _⟩
      simp only [fmaxR_inf_fin, if_pos, fminR_inf_fin]
  · simp only [fmaxR_fin_fin]
    by_cases hr : r < 0
    · refine ⟨0, ?_, le_refl 0, by norm_num⟩
      rw [if_pos hr]
      simp only [fminR_fin_fin]
      norm_num
    · rw [if_neg hr]
      simp only [fminR_fin_fin]
      by_cases hr' : (5 : ℚ) / 100 < r
      · exact ⟨5 / 100, by rw [if_pos hr'], by norm_num, le_refl _⟩
      · exact ⟨r, by rw [if_neg hr'], not_lt.mp hr, not_lt.mp hr'⟩

/-- `point_profile` clamps a NaN distance to `0`. -/
theorem point_profile_nan : point_profile .nan = .fin 0 := by
  unfold point_profile
  simp only [fabs_nan, fsub_nan_right, fmaxR_nan_left, fminR_fin_fin]
  norm_num

/-- Every entry of every chord mask is a finite value in `[0, 0.05]`. -/
theorem generate_line_mask_bound (i j : ℕ) (screws : ℕ → ℚ × ℚ) (y x : ℕ) :
    ∃ q : ℚ, generate_line_mask i j screws y x = .fin q ∧ 0 ≤ q ∧ q ≤ 5 / 100 := by
  unfold generate_line_mask
  split
  · exact ⟨0, rfl, le_refl 0, by norm_num⟩
  · exact point_profile_bound _

/-- For a vertical chord (`x1 = x2`), the slope is NaN or infinite and the
distance value computed by the source is NaN at every pixel. -/
theorem lineDist_nan {p1 p2 : ℚ × ℚ} (h : p1.1 = p2.1) (x y : ℕ) :
    lineDist p1 p2 x y = .nan := by
  have hden : p2.1 - p1.1 = 0 := by rw [h]; ring
  by_cases hnum : p2.2 - p1.2 = 0
  · have hm : slopeM p1 p2 = .nan := by
      simp [slopeM, hden, hnum]
    have hc : interceptC p1 p2 = .nan := by
      simp [interceptC, hm]
    simp [lineDist, hm, hc]
  · have hm : slopeM p1 p2 = .inf (decide (0 < p2.2 - p1.2)) := by
      simp [slopeM, hden, hnum]
    set s : Bool := decide (0 < p2.2 - p1.2) with hs
    by_cases hx1 : p1.1 = 0
    · have hc : interceptC p1 p2 = .nan := by
        simp [interceptC, hm, hx1]
      simp [lineDist, hm, hc]
    · have hc : interceptC p1 p2 = .inf (!(s == decide (0 < p1.1))) := by
        simp [interceptC, hm, hx1]
      set u : Bool := s == decide (0 < p1.1) with hu
      by_cases hx : (x : ℚ) = 0
      · simp [lineDist, hm, hc, hx]
      · have hxpos : (0 : ℚ) < (x : ℚ) := lt_of_le_of_ne (Nat.cast_nonneg x) (Ne.symm hx)
        have hA : fmul (slopeM p1 p2) (.fin (x : ℚ)) = .inf s := by
          rw [hm]
          simp [hx, hxpos]
        by_cases hsu : s = !u
        · have hnumer :
              fadd (fsub (fmul (slopeM p1 p2) (.fin (x : ℚ))) (.fin (y : ℚ)))
                (interceptC p1 p2) = .inf s := by
            rw [hA, hc, fsub_inf_fin, fadd_inf_inf, if_pos hsu]
          unfold lineDist
          rw [hnumer, hm, fmul_inf_inf, fabs_inf]
          simp
        · have hnumer :
              fadd (fsub (fmul (slopeM p1 p2) (.fin (x : ℚ))) (.fin (y : ℚ)))
                (interceptC p1 p2) = .nan := by
            rw [hA, hc, fsub_inf_fin, fadd_inf_inf, if_neg hsu]
          unfold lineDist
          rw [hnumer, fabs_nan, fdiv_nan_left]

/-- A vertical chord produces the all-zero mask: the NaN distance is clamped
to `0` by `point_profile`, and cropped pixels are `0` by construction. -/
theorem generate_line_mask_vertical (i j : ℕ) (screws : ℕ → ℚ × ℚ)
    (h : (screws i).1 = (screws j).1) (y x : ℕ) :
    generate_line_mask i j screws y x = .fin 0 := by
  unfold generate_line_mask
  split
  · rfl
  · rw [lineDist_nan h, point_profile_nan]

/-- For non-vertical chords the slope is the exact rational slope. -/
theorem slopeM_eq_fin {p1 p2 : ℚ × ℚ} (h : p1.1 ≠ p2.1) :
    slopeM p1 p2 = .fin ((p2.2 - p1.2) / (p2.1 - p1.1)) := by
  have : p2.1 - p1.1 ≠ 0 := sub_ne_zero.mpr (Ne.symm h)
  simp [slopeM, this]

/-- The slope is symmetric in its two points. -/
theorem slopeM_symm {p1 p2 : ℚ × ℚ} (h : p1.1 ≠ p2.1) :
    slopeM p2 p1 = slopeM p1 p2 := by
  rw [slopeM_eq_fin h, slopeM_eq_fin (Ne.symm h),
    show p1.2 - p2.2 = -(p2.2 - p1.2) by ring,
    show p1.1 - p2.1 = -(p2.1 - p1.1) by ring, neg_div_neg_eq]

/-- The intercept computed from either endpoint is the same exact rational. -/
theorem interceptC_symm {p1 p2 : ℚ × ℚ} (h : p1.1 ≠ p2.1) :
    interceptC p2 p1 = interceptC p1 p2 := by
  have hne : p2.1 - p1.1 ≠ 0 := sub_ne_zero.mpr (Ne.symm h)
  unfold interceptC
  rw [slopeM_symm h, slopeM_eq_fin h, fmul_fin_fin, fmul_fin_fin,
    fsub_fin_fin, fsub_fin_fin]
  congr 1
  field_simp
  ring

/-- The chord mask depends only on the unordered pair of anchors:
`generate_line_mask i j = generate_line_mask j i` pixel for pixel. -/
theorem generate_line_mask_symm (i j : ℕ) (screws : ℕ → ℚ × ℚ) (y x : ℕ) :
    generate_line_mask i j screws y x = generate_line_mask j i screws y x := by
  by_cases h : (screws i).1 = (screws j).1
  · rw [generate_line_mask_vertical i j screws h,
      generate_line_mask_vertical j i screws h.symm]
  · unfold generate_line_mask
    split
    · rfl
    · unfold lineDist
      rw [slopeM_symm h, interceptC_symm h]

/- Facts about the pixel list. -/

theorem pixels_length : pixels.length = SIZE * SIZE := by
  unfold pixels
  rw [List.length_flatMap]
  simp [Function.comp_def, List.map_const', List.sum_replicate, smul_eq_mul]

theorem pixels_ne_nil : pixels ≠ [] := by
  intro h
  have := pixels_length
  rw [h] at this
  simp [SIZE] at this

/- Facts about the scoring loop. -/

theorem scoreStep_skip (oldC : F) (ideal : ℕ → ℕ → ℚ) (image mask : ℕ → ℕ → F)
    (s : ScoreState) (hs : s.skip = true) (p : ℕ × ℕ) :
    scoreStep oldC ideal image mask s p = s := by
  simp [scoreStep, hs]

theorem scoreStep_no_skip (oldC : F) (ideal : ℕ → ℕ → ℚ) (image mask : ℕ → ℕ → F)
    (s : ScoreState) (hs : s.skip = false) (p : ℕ × ℕ) :
    scoreStep oldC ideal image mask s p =
      ⟨fadd s.closeness (scoreAddend ideal image mask p),
        fltB (fsub oldC (fadd s.closeness (scoreAddend ideal image mask p)))
          DELTA_DIFF_THRESHOLD⟩ := by
  simp [scoreStep, hs]

/-- Once the early exit has fired, the rest of the scoring loop is inert. -/
theorem scoreFold_skip (oldC : F) (ideal : ℕ → ℕ → ℚ) (image mask : ℕ → ℕ → F)
    (l : List (ℕ × ℕ)) (s : ScoreState) (hs : s.skip = true) :
    l.foldl (scoreStep oldC ideal image mask) s = s := by
  induction l with
  | nil => rfl
  | cons p l ih => rw [List.foldl_cons, scoreStep_skip _ _ _ _ _ hs]; exact ih

/-- Invariant transport: if a scoring fold ends unskipped, the early-exit
condition evaluated on its final closeness is false. -/
theorem scoreFold_final_check (oldC : F) (ideal : ℕ → ℕ → ℚ) (image mask : ℕ → ℕ → F)
    (l : List (ℕ × ℕ)) (s : ScoreState)
    (hI : s.skip = false → fltB (fsub oldC s.closeness) DELTA_DIFF_THRESHOLD = false) :
    (l.foldl (scoreStep oldC ideal image mask) s).skip = false →
      fltB (fsub oldC (l.foldl (scoreStep oldC ideal image mask) s).closeness)
        DELTA_DIFF_THRESHOLD = false := by
  induction l generalizing s with
  | nil => exact hI
  | cons p l ih =>
    rw [List.foldl_cons]
    apply ih
    cases hs : s.skip
    · rw [scoreStep_no_skip _ _ _ _ _ hs]
      exact fun h1 => h1
    · rw [scoreStep_skip _ _ _ _ _ hs]
      exact hI

/-- If the whole scoring loop ends unskipped, the final check on the complete
closeness sum was false. -/
theorem score_final_check (oldC : F) (ideal : ℕ → ℕ → ℚ) (image mask : ℕ → ℕ → F)
    (h : (score oldC ideal image mask).skip = false) :
    fltB (fsub oldC (score oldC ideal image mask).closeness) DELTA_DIFF_THRESHOLD
      = false := by
  obtain ⟨p, l, hpl⟩ := List.exists_cons_of_ne_nil pixels_ne_nil
  unfold score at h ⊢
  rw [hpl, List.foldl_cons] at h ⊢
  refine scoreFold_final_check oldC ideal image mask l _ ?_ h
  rw [scoreStep_no_skip _ _ _ _ _ rfl]
  exact fun h1 => h1

/-- An unskipped scoring fold accumulates exactly the plain sum of its
summands. -/
theorem scoreFold_no_skip_closeness (oldC : F) (ideal : ℕ → ℕ → ℚ)
    (image mask : ℕ → ℕ → F) (l : List (ℕ × ℕ)) (s : ScoreState)
    (hs : s.skip = false)
    (h : (l.foldl (scoreStep oldC ideal image mask) s).skip = false) :
    (l.foldl (scoreStep oldC ideal image mask) s).closeness =
      l.foldl (fun acc p => fadd acc (scoreAddend ideal image mask p)) s.closeness := by
  induction l generalizing s with
  | nil => rfl
  | cons p l ih =>
    rw [List.foldl_cons] at h ⊢
    rw [List.foldl_cons]
    rw [scoreStep_no_skip _ _ _ _ _ hs] at h ⊢
    cases hb : fltB (fsub oldC (fadd s.closeness (scoreAddend ideal image mask p)))
        DELTA_DIFF_THRESHOLD
    · rw [hb] at h
      exact ih ⟨fadd s.closeness (scoreAddend ideal image mask p), false⟩ rfl h
    · rw [hb] at h
      rw [scoreFold_skip _ _ _ _ _ _ rfl] at h
      simp at h

/-- The closeness of an unskipped candidate equals its `plainScore`. -/
theorem score_closeness_eq_plain (oldC : F) (ideal : ℕ → ℕ → ℚ)
    (image mask : ℕ → ℕ → F)
    (h : (score oldC ideal image mask).skip = false) :
    (score oldC ideal image mask).closeness = plainScore ideal image mask := by
  unfold score at h ⊢
  unfold plainScore
  exact scoreFold_no_skip_closeness oldC ideal image mask pixels _ rfl h

/-- A fold of `fadd` over finite non-negative summands is finite and at least
its starting value. -/
theorem foldl_fadd_fin (l : List (ℕ × ℕ)) (g : ℕ × ℕ → F)
    (hg : ∀ p ∈ l, ∃ r : ℚ, g p = .fin r ∧ 0 ≤ r) (a : ℚ) :
    ∃ q : ℚ, l.foldl (fun acc p => fadd acc (g p)) (.fin a) = .fin q ∧ a ≤ q := by
  induction l generalizing a with
  | nil => exact ⟨a, rfl, le_refl a⟩
  | cons p l ih =>
    obtain ⟨r, hr, hr0⟩ := hg p (List.mem_cons_self p l)
    rw [List.foldl_cons, hr, fadd_fin_fin]
    obtain ⟨q, hq, haq⟩ := ih (fun p hp => hg p (List.mem_cons_of_mem _ hp)) (a + r)
    exact ⟨q, hq, by linarith⟩

/-- Pointwise equal summands give equal folds. -/
theorem foldl_fadd_congr (l : List (ℕ × ℕ)) (g1 g2 : ℕ × ℕ → F) (a : F)
    (h : ∀ p ∈ l, g1 p = g2 p) :
    l.foldl (fun acc p => fadd acc (g1 p)) a =
      l.foldl (fun acc p => fadd acc (g2 p)) a := by
  induction l generalizing a with
  | nil => rfl
  | cons p l ih =>
    rw [List.foldl_cons, List.foldl_cons, h p (List.mem_cons_self p l)]
    exact ih _ (fun p hp => h p (List.mem_cons_of_mem _ hp))

/-- The scoring loop never skips while the accumulated sum stays within the
acceptance budget: starting from `q` with every summand in `[0, 1]` and
`q + length ≤ oldCloseness + 1/2`, the fold ends unskipped. -/
theorem scoreFold_no_skip_of_bounded (O : ℚ) (ideal : ℕ → ℕ → ℚ)
    (image mask : ℕ → ℕ → F) (l : List (ℕ × ℕ)) (q : ℚ) (hq : 0 ≤ q)
    (hadd : ∀ p ∈ l, ∃ r : ℚ,
      scoreAddend ideal image mask p = .fin r ∧ 0 ≤ r ∧ r ≤ 1)
    (hbudget : q + l.length ≤ O + 1 / 2) :
    (l.foldl (scoreStep (.fin O) ideal image mask) ⟨.fin q, false⟩).skip = false := by
  induction l generalizing q with
  | nil => rfl
  | cons p l ih =>
    obtain ⟨r, hr, hr0, hr1⟩ := hadd p (List.mem_cons_self p l)
    have hlen : (0 : ℚ) ≤ l.length := by positivity
    have hbudget' : q + (l.length + 1) ≤ O + 1 / 2 := by
      rw [List.length_cons] at hbudget
      push_cast at hbudget
      linarith
    have hstep : scoreStep (.fin O) ideal image mask ⟨.fin q, false⟩ p =
        ⟨.fin (q + r), false⟩ := by
      rw [scoreStep_no_skip _ _ _ _ _ rfl]
      rw [hr, fadd_fin_fin, fsub_fin_fin]
      unfold DELTA_DIFF_THRESHOLD
      rw [fltB_fin_fin]
      have : ¬(O - (q + r) < -(1 / 2)) := by linarith
      rw [decide_eq_false this]
    rw [List.foldl_cons, hstep]
    exact ih (q + r) (by linarith)
      (fun p hp => hadd p (List.mem_cons_of_mem _ hp)) (by linarith)

/- Facts about the sort of the `permutations` list. -/

theorem mem_sortInsert (a e : ℕ × ℕ × F) (l : List (ℕ × ℕ × F)) :
    e ∈ sortInsert a l ↔ e = a ∨ e ∈ l := by
  induction l with
  | nil => simp [sortInsert]
  | cons b l ih =>
    unfold sortInsert
    split
    · simp [List.mem_cons]
    · simp only [List.mem_cons, ih]
      tauto

theorem mem_sortPerms (e : ℕ × ℕ × F) (l : List (ℕ × ℕ × F)) :
    e ∈ sortPerms l ↔ e ∈ l := by
  induction l with
  | nil => simp [sortPerms]
  | cons a l ih =>
    show e ∈ sortInsert a (sortPerms l) ↔ _
    rw [mem_sortInsert, ih]
    simp [List.mem_cons]

theorem sortInsert_length (a : ℕ × ℕ × F) (l : List (ℕ × ℕ × F)) :
    (sortInsert a l).length = l.length + 1 := by
  induction l with
  | nil => rfl
  | cons b l ih =>
    unfold sortInsert
    split
    · simp
    · simp [ih]

theorem sortPerms_length (l : List (ℕ × ℕ × F)) :
    (sortPerms l).length = l.length := by
  induction l with
  | nil => rfl
  | cons a l ih =>
    show (sortInsert a (sortPerms l)).length = _
    rw [sortInsert_length, ih, List.length_cons]

theorem sortPerms_ne_nil {l : List (ℕ × ℕ × F)} (h : l ≠ []) :
    sortPerms l ≠ [] := by
  intro hnil
  apply h
  have := sortPerms_length l
  rw [hnil] at this
  exact List.length_eq_zero.mp this.symm

/-- The head of the sorted list is a closeness lower bound for the whole list,
provided every closeness is finite (true of every list the loop builds). -/
theorem sortPerms_head_min :
    ∀ l : List (ℕ × ℕ × F), (∀ e ∈ l, ∃ q : ℚ, e.2.2 = F.fin q) →
      ∀ h t, sortPerms l = h :: t → ∀ e ∈ l, fleB h.2.2 e.2.2 = true := by
  intro l
  induction l with
  | nil =>
    intro _ h t hsort
    simp [sortPerms] at hsort
  | cons a l ih =>
    intro hfin h t hsort e he
    obtain ⟨qa, hqa⟩ := hfin a (List.mem_cons_self a l)
    have hsort' : sortInsert a (sortPerms l) = h :: t := hsort
    cases hl : sortPerms l with
    | nil =>
      rw [hl] at hsort'
      have hha : h = a := by
        simpa [sortInsert] using congrArg (fun l => l.headD a) hsort'.symm
      have hla : l = [] := by
        have := sortPerms_length l
        rw [hl] at this
        exact List.length_eq_zero.mp this.symm
      subst hla
      rcases List.mem_singleton.mp he with rfl
      rw [hha, hqa, fleB]
      simp
    | cons b t' =>
      have hbl : b ∈ l := (mem_sortPerms b l).mp (hl ▸ List.mem_cons_self b t')
      obtain ⟨qb, hqb⟩ := hfin b (List.mem_cons_of_mem a hbl)
      have hmin : ∀ e ∈ l, fleB b.2.2 e.2.2 = true :=
        ih (fun e he => hfin e (List.mem_cons_of_mem a he)) b t' hl
      rw [hl] at hsort'
      unfold sortInsert at hsort'
      by_cases hc : candLe a b = true
      · rw [if_pos hc] at hsort'
        have hha : h = a := (List.cons.injEq _ _ _ _).mp hsort' |>.1.symm
        have hab : qa ≤ qb := by
          unfold candLe at hc
          rw [hqa, hqb, fltB_fin_fin] at hc
          simpa using hc
        rcases List.mem_cons.mp he with rfl | hel
        · rw [hha, hqa, fleB_fin_fin]
          simp
        · obtain ⟨qe, hqe⟩ := hfin e (List.mem_cons_of_mem a hel)
          have hm := hmin e hel
          rw [hqb, hqe, fleB_fin_fin] at hm
          rw [hha, hqa, hqe, fleB_fin_fin]
          simp only [decide_eq_true_eq] at hm ⊢
          linarith
      · rw [if_neg hc] at hsort'
        have hhb : h = b := (List.cons.injEq _ _ _ _).mp hsort' |>.1.symm
        have hba : qb ≤ qa := by
          unfold candLe at hc
          rw [hqa, hqb, fltB_fin_fin] at hc
          by_contra hno
          rw [decide_eq_false (not_lt.mpr (le_of_not_le hno))] at hc
          simp at hc
        rcases List.mem_cons.mp he with rfl | hel
        · rw [hhb, hqb, hqa, fleB_fin_fin]
          simpa using hba
        · rw [hhb]
          exact hmin e hel

/- Facts about the re-scan loop. -/

/-- If the head of the sorted list passes the threshold check, the re-scan
stops at `x = 0`. -/
theorem scanX_zero (oldC : F) (l : List (ℕ × ℕ × F))
    (h : fltB (fsub oldC (l.getD 0 (0, 0, .fin 0)).2.2) DELTA_DIFF_THRESHOLD
      = false) :
    scanX oldC l = 0 := by
  unfold scanX
  cases hl : l.length with
  | zero => rfl
  | succ n =>
    unfold scanAux
    rw [h]
    simp

/- Facts about the `permutations` list. -/

theorem mem_permutations {ideal : ℕ → ℕ → ℚ} {screws : ℕ → ℚ × ℚ}
    {image : ℕ → ℕ → F} {oldC : F} {cur : ℕ} {e : ℕ × ℕ × F}
    (he : e ∈ permutations ideal screws image oldC cur) :
    e.1 = cur ∧ e.2.1 ∈ candidates cur ∧
      score oldC ideal image (generate_line_mask cur e.2.1 screws) =
        ⟨e.2.2, false⟩ := by
  unfold permutations iRange at he
  rw [if_neg (by simp [SLOW_BETTER_MODE])] at he
  simp only [List.flatMap_cons, List.flatMap_nil, List.append_nil] at he
  rw [List.mem_filterMap] at he
  obtain ⟨j, hj, hfj⟩ := he
  cases hsk : (score oldC ideal image (generate_line_mask cur j screws)).skip
  · rw [hsk] at hfj
    simp only [Bool.false_eq_true, if_false, Option.some.injEq] at hfj
    subst hfj
    refine ⟨rfl, hj, ?_⟩
    cases hsc : score oldC ideal image (generate_line_mask cur j screws)
    rw [hsc] at hsk
    dsimp only at hsk
    subst hsk
    rfl
  · rw [hsk] at hfj
    simp at hfj

theorem permutations_mem_of (ideal : ℕ → ℕ → ℚ) (screws : ℕ → ℚ × ℚ)
    (image : ℕ → ℕ → F) (oldC : F) (cur j : ℕ)
    (hj : j ∈ candidates cur)
    (hsk : (score oldC ideal image (generate_line_mask cur j screws)).skip = false) :
    (cur, j, (score oldC ideal image (generate_line_mask cur j screws)).closeness) ∈
      permutations ideal screws image oldC cur := by
  unfold permutations iRange
  rw [if_neg (by simp [SLOW_BETTER_MODE])]
  simp only [List.flatMap_cons, List.flatMap_nil, List.append_nil]
  rw [List.mem_filterMap]
  refine ⟨j, hj, ?_⟩
  dsimp only
  rw [hsk]
  simp

/- Facts about one iteration of the selector loop. -/

/-- Every entry of the sorted list is an entry of `permutations`. -/
theorem mem_stepPerms {ideal : ℕ → ℕ → ℚ} {screws : ℕ → ℚ × ℚ} {s : LoopState}
    {e : ℕ × ℕ × F} (he : e ∈ stepPerms ideal screws s) :
    e ∈ permutations ideal screws s.image s.oldCloseness s.current :=
  (mem_sortPerms e _).mp he

/-- Whenever the candidate list is nonempty, its sorted head passed its final
threshold check, so the re-scan stays at `x = 0`. -/
theorem stepPerms_scanX_zero (ideal : ℕ → ℕ → ℚ) (screws : ℕ → ℚ × ℚ)
    (s : LoopState) (hne : stepPerms ideal screws s ≠ []) :
    scanX s.oldCloseness (stepPerms ideal screws s) = 0 := by
  obtain ⟨h0, t, hht⟩ := List.exists_cons_of_ne_nil hne
  have hmem : h0 ∈ permutations ideal screws s.image s.oldCloseness s.current := by
    apply mem_stepPerms
    rw [hht]
    exact List.mem_cons_self _ _
  obtain ⟨hcur, hjm, hsc⟩ := mem_permutations hmem
  have hskip : (score s.oldCloseness ideal s.image
      (generate_line_mask s.current h0.2.1 screws)).skip = false := by rw [hsc]
  have hchk := score_final_check _ _ _ _ hskip
  rw [hsc] at hchk
  apply scanX_zero
  rw [hht]
  exact hchk

/-- The `panic!("x is not 0")` branch is never taken. -/
theorem step_not_panicked (ideal : ℕ → ℕ → ℚ) (screws : ℕ → ℚ × ℚ)
    (s : LoopState) : isPanicked (step ideal screws s) = false := by
  unfold step
  by_cases hemp : (stepPerms ideal screws s).isEmpty = true
  · rw [if_pos hemp]
    rfl
  · rw [if_neg hemp]
    have hne : stepPerms ideal screws s ≠ [] := by
      intro h
      rw [h] at hemp
      exact hemp rfl
    rw [if_neg (by rw [stepPerms_scanX_zero ideal screws s hne]; exact fun hh => hh rfl)]
    rfl

/-- A nonempty candidate list forces the iteration to accept a chord. -/
theorem step_accepts (ideal : ℕ → ℕ → ℚ) (screws : ℕ → ℚ × ℚ) (s : LoopState)
    (hne : permutations ideal screws s.image s.oldCloseness s.current ≠ []) :
    isAccepted (step ideal screws s) = true := by
  unfold step
  have hne' : stepPerms ideal screws s ≠ [] := sortPerms_ne_nil hne
  have hemp : (stepPerms ideal screws s).isEmpty = false := by
    cases hl : stepPerms ideal screws s with
    | nil => exact absurd hl hne'
    | cons a l => rfl
  rw [hemp]
  simp only [Bool.false_eq_true, if_false]
  rw [if_neg (by rw [stepPerms_scanX_zero ideal screws s hne']; exact fun hh => hh rfl)]
  rfl

/-- What an accepting iteration accepted: the head of the sorted candidate
list, a pushed candidate `(current, j, closeness)`; the new state adds the
swapped-argument mask, moves the current anchor to `j` and counts one more
accepted chord. -/
theorem step_accept (ideal : ℕ → ℕ → ℚ) (screws : ℕ → ℚ × ℚ) (s : LoopState)
    (c : ℕ × ℕ) (s' : LoopState) (hacc : step ideal screws s = .accept c s') :
    ∃ j t,
      stepPerms ideal screws s = (s.current, j, s'.oldCloseness) :: t ∧
      j ∈ candidates s.current ∧
      c = (s.current, j) ∧
      score s.oldCloseness ideal s.image (generate_line_mask s.current j screws)
        = ⟨s'.oldCloseness, false⟩ ∧
      s'.image = (fun y' x' => fadd (s.image y' x')
        (generate_line_mask j s.current screws y' x')) ∧
      s'.current = j ∧
      s'.accepted = s.accepted + 1 := by
  unfold step at hacc
  by_cases hemp : (stepPerms ideal screws s).isEmpty = true
  · rw [if_pos hemp] at hacc
    simp at hacc
  · rw [if_neg hemp] at hacc
    have hne : stepPerms ideal screws s ≠ [] := by
      intro h
      rw [h] at hemp
      exact hemp rfl
    have hx0 : scanX s.oldCloseness (stepPerms ideal screws s) = 0 :=
      stepPerms_scanX_zero ideal screws s hne
    rw [if_neg (by rw [hx0]; exact fun hh => hh rfl)] at hacc
    obtain ⟨h0, t, hht⟩ := List.exists_cons_of_ne_nil hne
    have hchosen : chosenOf ideal screws s = h0 := by
      unfold chosenOf
      rw [hx0, hht]
      rfl
    rw [hchosen] at hacc
    rw [Outcome.accept.injEq] at hacc
    obtain ⟨hceq, hseq⟩ := hacc
    have hmem : h0 ∈ permutations ideal screws s.image s.oldCloseness s.current := by
      apply mem_stepPerms
      rw [hht]
      exact List.mem_cons_self _ _
    obtain ⟨hcur, hjm, hsc⟩ := mem_permutations hmem
    subst hseq
    subst hceq
    refine ⟨h0.2.1, t, ?_, hjm, by rw [hcur], hsc, by rw [← hcur], rfl, rfl⟩
    rw [← hcur]
    exact hht

/-- Unfolding one iteration of `run`. -/
theorem run_succ (ideal : ℕ → ℕ → ℚ) (screws : ℕ → ℚ × ℚ) (n : ℕ) :
    run ideal screws (n + 1) =
      match step ideal screws (run ideal screws n) with
      | .accept _ s' => s'
      | _ => run ideal screws n := rfl

/-- Every pixel of the working grid is a finite non-negative value at every
point in the run. -/
theorem run_image_fin (ideal : ℕ → ℕ → ℚ) (screws : ℕ → ℚ × ℚ) (n : ℕ)
    (y x : ℕ) :
    ∃ q : ℚ, 0 ≤ q ∧ (run ideal screws n).image y x = .fin q := by
  induction n with
  | zero => exact ⟨0, le_refl 0, rfl⟩
  | succ n ih =>
    obtain ⟨q, hq0, hq⟩ := ih
    rw [run_succ]
    cases hst : step ideal screws (run ideal screws n) with
    | halt => exact ⟨q, hq0, hq⟩
    | panicked => exact ⟨q, hq0, hq⟩
    | accept c s' =>
      obtain ⟨j, t, _, _, _, _, himg, _, _⟩ := step_accept _ _ _ _ _ hst
      obtain ⟨m, hm, hm0, _⟩ :=
        generate_line_mask_bound j (run ideal screws n).current screws y x
      refine ⟨q + m, by linarith, ?_⟩
      show s'.image y x = _
      rw [himg]
      show fadd ((run ideal screws n).image y x)
        (generate_line_mask j (run ideal screws n).current screws y x) = _
      rw [hq, hm, fadd_fin_fin]

/-- Accepted counts do not decrease. -/
theorem run_accepted_mono (ideal : ℕ → ℕ → ℚ) (screws : ℕ → ℚ × ℚ) (n : ℕ) :
    (run ideal screws n).accepted ≤ (run ideal screws (n + 1)).accepted := by
  rw [run_succ]
  cases hst : step ideal screws (run ideal screws n) with
  | halt => exact le_refl _
  | panicked => exact le_refl _
  | accept c s' =>
    obtain ⟨j, t, _, _, _, _, _, _, hacc⟩ := step_accept _ _ _ _ _ hst
    show _ ≤ s'.accepted
    rw [hacc]
    exact Nat.le_succ _

/-- The scoring summand is finite and non-negative on a finite working
grid. -/
theorem scoreAddend_fin (ideal : ℕ → ℕ → ℚ) (image mask : ℕ → ℕ → F)
    (p : ℕ × ℕ) (ha : ∃ qa : ℚ, 0 ≤ qa ∧ image p.2 p.1 = .fin qa)
    (hm : ∃ qm : ℚ, mask p.2 p.1 = .fin qm) :
    ∃ r : ℚ, scoreAddend ideal image mask p = .fin r ∧ 0 ≤ r := by
  obtain ⟨qa, _, hqa⟩ := ha
  obtain ⟨qm, hqm⟩ := hm
  unfold scoreAddend
  rw [hqa, hqm, fsub_fin_fin, fsub_fin_fin, fpow2_fin]
  exact ⟨_, rfl, mul_self_nonneg _⟩

/-- `plainScore` of a finite working grid and a finite mask is finite and
non-negative. -/
theorem plainScore_fin (ideal : ℕ → ℕ → ℚ) (image mask : ℕ → ℕ → F)
    (himage : ∀ y x, ∃ q : ℚ, 0 ≤ q ∧ image y x = .fin q)
    (hmask : ∀ y x, ∃ q : ℚ, mask y x = .fin q) :
    ∃ q : ℚ, plainScore ideal image mask = .fin q ∧ 0 ≤ q := by
  unfold plainScore
  obtain ⟨q, hq, h0q⟩ := foldl_fadd_fin pixels (scoreAddend ideal image mask)
    (fun p _ => scoreAddend_fin ideal image mask p (himage p.2 p.1)
      (hmask p.2 p.1)) 0
  exact ⟨q, hq, h0q⟩

/-- `totalLoss` of a finite working grid is finite and non-negative. -/
theorem totalLoss_fin (ideal : ℕ → ℕ → ℚ) (image : ℕ → ℕ → F)
    (himage : ∀ y x, ∃ q : ℚ, 0 ≤ q ∧ image y x = .fin q) :
    ∃ q : ℚ, totalLoss ideal image = .fin q ∧ 0 ≤ q := by
  unfold totalLoss
  obtain ⟨q, hq, h0q⟩ := foldl_fadd_fin pixels
    (fun p => fpow2 (fsub (.fin (ideal p.2 p.1)) (image p.2 p.1)))
    (fun p _ => by
      obtain ⟨qa, _, hqa⟩ := himage p.2 p.1
      dsimp only
      rw [hqa, fsub_fin_fin, fpow2_fin]
      exact ⟨_, rfl, mul_self_nonneg _⟩) 0
  exact ⟨q, hq, h0q⟩

/-- Every closeness value in the `permutations` list is finite when the
working grid is finite. -/
theorem permutations_closeness_fin (ideal : ℕ → ℕ → ℚ) (screws : ℕ → ℚ × ℚ)
    (image : ℕ → ℕ → F) (oldC : F) (cur : ℕ)
    (himage : ∀ y x, ∃ q : ℚ, 0 ≤ q ∧ image y x = .fin q) :
    ∀ e ∈ permutations ideal screws image oldC cur, ∃ q : ℚ, e.2.2 = F.fin q := by
  intro e he
  obtain ⟨_, _, hsc⟩ := mem_permutations he
  have hskip : (score oldC ideal image
      (generate_line_mask cur e.2.1 screws)).skip = false := by rw [hsc]
  have hplain := score_closeness_eq_plain _ _ _ _ hskip
  obtain ⟨q, hq, _⟩ := plainScore_fin ideal image
    (generate_line_mask cur e.2.1 screws) himage
    (fun y x => by
      obtain ⟨m, hm, _, _⟩ := generate_line_mask_bound cur e.2.1 screws y x
      exact ⟨m, hm⟩)
  refine ⟨q, ?_⟩
  have : (score oldC ideal image (generate_line_mask cur e.2.1 screws)).closeness
      = e.2.2 := by rw [hsc]
  rw [← this, hplain, hq]

/-- Scoring a candidate mask against the current grid computes exactly the
loss of the grid with the (swapped-argument) mask applied. -/
theorem plainScore_eq_totalLoss_add (ideal : ℕ → ℕ → ℚ) (image : ℕ → ℕ → F)
    (i j : ℕ) (screws : ℕ → ℚ × ℚ)
    (himage : ∀ y x, ∃ q : ℚ, 0 ≤ q ∧ image y x = .fin q) :
    plainScore ideal image (generate_line_mask i j screws) =
      totalLoss ideal
        (fun y x => fadd (image y x) (generate_line_mask j i screws y x)) := by
  unfold plainScore totalLoss
  apply foldl_fadd_congr
  intro p _
  obtain ⟨qa, _, hqa⟩ := himage p.2 p.1
  obtain ⟨qm, hqm, _, _⟩ := generate_line_mask_bound i j screws p.2 p.1
  have hsymm : generate_line_mask j i screws p.2 p.1 = .fin qm := by
    rw [generate_line_mask_symm j i screws p.2 p.1]
    exact hqm
  unfold scoreAddend
  dsimp only
  rw [hqa, hqm, hsymm, fadd_fin_fin, fsub_fin_fin, fsub_fin_fin, fsub_fin_fin,
    fpow2_fin, fpow2_fin]
  congr 1
  ring

/-- Scoring a vertical (all-zero-mask) candidate computes exactly the current
loss. -/
theorem plainScore_vertical (ideal : ℕ → ℕ → ℚ) (image : ℕ → ℕ → F)
    (i j : ℕ) (screws : ℕ → ℚ × ℚ) (hvert : (screws i).1 = (screws j).1)
    (himage : ∀ y x, ∃ q : ℚ, 0 ≤ q ∧ image y x = .fin q) :
    plainScore ideal image (generate_line_mask i j screws) =
      totalLoss ideal image := by
  unfold plainScore totalLoss
  apply foldl_fadd_congr
  intro p _
  obtain ⟨qa, _, hqa⟩ := himage p.2 p.1
  unfold scoreAddend
  rw [generate_line_mask_vertical i j screws hvert, hqa, fsub_fin_fin,
    fsub_fin_fin, fpow2_fin, fpow2_fin]
  congr 1
  ring

/-- Once a chord has been accepted, `old_closeness` is exactly the loss of
the current working grid. -/
theorem run_oldCloseness_eq_totalLoss (ideal : ℕ → ℕ → ℚ)
    (screws : ℕ → ℚ × ℚ) (n : ℕ) (hacc : 1 ≤ (run ideal screws n).accepted) :
    (run ideal screws n).oldCloseness =
      totalLoss ideal (run ideal screws n).image := by
  induction n with
  | zero => exact absurd hacc (by simp [run, initialState])
  | succ n ih =>
    rw [run_succ] at hacc ⊢
    cases hst : step ideal screws (run ideal screws n) with
    | halt => rw [hst] at hacc; exact ih hacc
    | panicked => rw [hst] at hacc; exact ih hacc
    | accept c s' =>
      obtain ⟨j, t, hht, hjm, hceq, hsc, himg, hcurj, hacount⟩ :=
        step_accept _ _ _ _ _ hst
      show s'.oldCloseness = totalLoss ideal s'.image
      have hskip : (score (run ideal screws n).oldCloseness ideal
          (run ideal screws n).image
          (generate_line_mask (run ideal screws n).current j screws)).skip
          = false := by rw [hsc]
      have hplain := score_closeness_eq_plain _ _ _ _ hskip
      have hclose : (score (run ideal screws n).oldCloseness ideal
          (run ideal screws n).image
          (generate_line_mask (run ideal screws n).current j screws)).closeness
          = s'.oldCloseness := by rw [hsc]
      rw [himg, ← plainScore_eq_totalLoss_add ideal (run ideal screws n).image
        (run ideal screws n).current j screws
        (fun y x => run_image_fin ideal screws n y x), ← hplain, hclose]

/-- While nothing has been accepted, the state is still the initial state. -/
theorem run_eq_init_of_accepted_eq_zero (ideal : ℕ → ℕ → ℚ)
    (screws : ℕ → ℚ × ℚ) (n : ℕ) (h : (run ideal screws n).accepted = 0) :
    run ideal screws n = initialState := by
  induction n with
  | zero => rfl
  | succ n ih =>
    rw [run_succ] at h ⊢
    cases hst : step ideal screws (run ideal screws n) with
    | halt => rw [hst] at h; exact ih h
    | panicked => rw [hst] at h; exact ih h
    | accept c s' =>
      rw [hst] at h
      obtain ⟨j, t, _, _, _, _, _, _, hacc⟩ := step_accept _ _ _ _ _ hst
      have h' : s'.accepted = 0 := h
      rw [hacc] at h'
      simp at h'

/- Helper facts for the boundary scenarios. -/

/-- With the all-zero (all-white) target, the first iteration accepts a
chord: candidate `(100, 0)` is scored against the sentinel
`old_closeness = 100000` and cannot be skipped, so `permutations` is
nonempty. -/
theorem firstStep_accepts (screws : ℕ → ℚ × ℚ) :
    isAccepted (step allZeroIdeal screws initialState) = true := by
  apply step_accepts
  have hj : (0 : ℕ) ∈ candidates 100 := by decide
  have hsk : (score (.fin 100000) allZeroIdeal initialState.image
      (generate_line_mask 100 0 screws)).skip = false := by
    unfold score
    apply scoreFold_no_skip_of_bounded 100000 allZeroIdeal initialState.image
      (generate_line_mask 100 0 screws) pixels 0 (le_refl 0)
    · intro p _
      obtain ⟨m, hm, hm0, hm5⟩ := generate_line_mask_bound 100 0 screws p.2 p.1
      refine ⟨(0 - 0 - m) * (0 - 0 - m), ?_, mul_self_nonneg _, ?_⟩
      · unfold scoreAddend allZeroIdeal
        show fpow2 (fsub (fsub (.fin 0) (.fin 0)) _) = _
        rw [hm, fsub_fin_fin, fsub_fin_fin, fpow2_fin]
      · nlinarith
    · rw [pixels_length]
      norm_num [SIZE]
  have hmem := permutations_mem_of allZeroIdeal screws initialState.image
    (.fin 100000) 100 0 hj hsk
  exact List.ne_nil_of_mem hmem

/-- With the all-zero target, exactly one chord has been accepted after the
first iteration. -/
theorem run_one_accepted (screws : ℕ → ℚ × ℚ) :
    (run allZeroIdeal screws 1).accepted = 1 := by
  have hacc : isAccepted (step allZeroIdeal screws
      (run allZeroIdeal screws 0)) = true := firstStep_accepts screws
  rw [run_succ]
  cases hst : step allZeroIdeal screws (run allZeroIdeal screws 0) with
  | halt => rw [hst] at hacc; simp [isAccepted] at hacc
  | panicked => rw [hst] at hacc; simp [isAccepted] at hacc
  | accept c s' =>
    obtain ⟨j, t, _, _, _, _, _, _, hacount⟩ := step_accept _ _ _ _ _ hst
    show s'.accepted = 1
    rw [hacount]
    rfl

/- The claims. -/

/-- C1: for the exactly vertical chord of the spec's scenario (anchor 0 at
`(S/2, 0)`, anchor `N/2 = 135` at `(S/2, S)`), `generate_line_mask` completes
and the returned mask holds no NaN or infinity; but the centerline pixel
`(150, 150)` receives `0`, not the maximum profile value `0.05`
(`point_profile 0`): the slope-intercept distance degenerates to NaN and is
clamped to `0`. -/
theorem c1_vertical_chord_centerline :
    (∀ y x : ℕ, ∃ q : ℚ, generate_line_mask 0 135 vScrews y x = .fin q) ∧
    generate_line_mask 0 135 vScrews 150 150 = F.fin 0 ∧
    point_profile (.fin 0) = .fin (5 / 100) := by
  refine ⟨fun y x => ?_, ?_, ?_⟩
  · obtain ⟨q, hq, _, _⟩ := generate_line_mask_bound 0 135 vScrews y x
    exact ⟨q, hq⟩
  · exact generate_line_mask_vertical 0 135 vScrews rfl 150 150
  · unfold point_profile
    norm_num

/-- C2 (counterexample): the chord `(0, 260)` is considered by the selector
loop's admissibility test (`|0 - 260| = 260 > 18`), yet its circular distance
is `min(260, 11) = 11 ≤ MIN_SEP = 18`. -/
theorem c2_counterexample :
    (260 ∈ candidates 0) ∧ sepOK 0 260 = true ∧
      circularDistance 0 260 ≤ MIN_SEP := by
  refine ⟨by decide, by decide, by decide⟩

/-- C2 (amended): every chord the selector loop considers, and hence every
chord it accepts, satisfies the source's linear index-distance test
`|i - j| > MIN_SEP`; the circular distance may still be `≤ MIN_SEP` for
wrap-around pairs. -/
theorem c2_linear_separation :
    (∀ i j : ℕ, j ∈ candidates i → sepOK i j = true ∧ j < NUM_SCREWS) ∧
    (∀ (ideal : ℕ → ℕ → ℚ) (screws : ℕ → ℚ × ℚ) (s : LoopState),
      (chordOf (step ideal screws s)).all (fun c => sepOK c.1 c.2) = true) := by
  constructor
  · intro i j hj
    rw [candidates, List.mem_filter, List.mem_range] at hj
    exact ⟨hj.2, hj.1⟩
  · intro ideal screws s
    cases hst : step ideal screws s with
    | halt => rfl
    | panicked => rfl
    | accept c s' =>
      obtain ⟨j, t, _, hjm, hceq, _⟩ := step_accept _ _ _ _ _ hst
      rw [candidates, List.mem_filter] at hjm
      unfold chordOf
      rw [hceq]
      exact hjm.2

theorem c2_linear_separation_witness : sepOK 100 0 = true ∧ 0 < NUM_SCREWS :=
  c2_linear_separation.1 100 0 (by decide)

/-- C5: every pixel of the working grid is a finite value that starts at `0`,
stays non-negative, and never decreases from one iteration to the next. -/
theorem c5_working_nonneg_monotone (ideal : ℕ → ℕ → ℚ) (screws : ℕ → ℚ × ℚ)
    (n y x : ℕ) :
    ∃ q q' : ℚ, (run ideal screws n).image y x = .fin q ∧
      (run ideal screws (n + 1)).image y x = .fin q' ∧
      0 ≤ q ∧ q ≤ q' ∧ initialState.image y x = .fin 0 := by
  obtain ⟨q, hq0, hq⟩ := run_image_fin ideal screws n y x
  rw [run_succ]
  cases hst : step ideal screws (run ideal screws n) with
  | halt => exact ⟨q, q, hq, hq, hq0, le_refl q, rfl⟩
  | panicked => exact ⟨q, q, hq, hq, hq0, le_refl q, rfl⟩
  | accept c s' =>
    obtain ⟨j, t, _, _, _, _, himg, _, _⟩ := step_accept _ _ _ _ _ hst
    obtain ⟨m, hm, hm0, _⟩ :=
      generate_line_mask_bound j (run ideal screws n).current screws y x
    refine ⟨q, q + m, hq, ?_, hq0, by linarith, rfl⟩
    show s'.image y x = _
    rw [himg]
    show fadd ((run ideal screws n).image y x)
      (generate_line_mask j (run ideal screws n).current screws y x) = _
    rw [hq, hm, fadd_fin_fin]

/-- C6 (counterexample): anchors 100 and 171 of the program's table both have
`x = 48`, the pixel `(x, y) = (48, 150)` lies on that vertical chord inside
the disk (so its perpendicular distance to the chord's line is `0` and
`profile(0) = 0.05`), yet the mask entry is `0`. -/
theorem c6_counterexample :
    generate_line_mask 100 171 screwTable 150 48 = F.fin 0 ∧
    (screwTable 100).1 = 48 ∧ (screwTable 171).1 = 48 ∧
    outsideCircle 48 150 = false ∧
    point_profile (.fin 0) = .fin (5 / 100) := by
  refine ⟨?_, rfl, rfl, ?_, ?_⟩
  · exact generate_line_mask_vertical 100 171 screwTable rfl 150 48
  · unfold outsideCircle
    rw [decide_eq_false (by norm_num [SIZE])]
  · unfold point_profile
    norm_num

/-- C6 (amended): every chord-mask entry is a finite value in `[0, 0.05]`;
for anchors with distinct x coordinates the entry is `profile` of the
computed slope-intercept distance (and `0` outside the inscribed disk), while
for anchors sharing an x coordinate (vertical chords) every entry is `0`. -/
theorem c6_mask_bound_and_profile :
    (∀ (screws : ℕ → ℚ × ℚ) (i j y x : ℕ),
      ∃ q : ℚ, generate_line_mask i j screws y x = .fin q ∧
        0 ≤ q ∧ q ≤ 5 / 100) ∧
    (∀ (screws : ℕ → ℚ × ℚ) (i j : ℕ), (screws i).1 ≠ (screws j).1 →
      slopeM (screws i) (screws j) =
        .fin (((screws j).2 - (screws i).2) / ((screws j).1 - (screws i).1))) ∧
    (∀ (screws : ℕ → ℚ × ℚ) (i j : ℕ), (screws i).1 = (screws j).1 →
      ∀ y x, generate_line_mask i j screws y x = .fin 0) :=
  ⟨fun screws i j y x => generate_line_mask_bound i j screws y x,
   fun _ _ _ h => slopeM_eq_fin h,
   fun screws i j h y x => generate_line_mask_vertical i j screws h y x⟩

theorem c6_mask_bound_and_profile_witness :
    (∃ q : ℚ, generate_line_mask 3 4 screwTable 10 10 = .fin q ∧
      0 ≤ q ∧ q ≤ 5 / 100) ∧
    (slopeM (vScrews 0) (vScrews 171) =
      .fin (((vScrews 171).2 - (vScrews 0).2) / ((vScrews 171).1 - (vScrews 0).1))) ∧
    generate_line_mask 100 171 screwTable 7 7 = F.fin 0 :=
  ⟨c6_mask_bound_and_profile.1 screwTable 3 4 10 10,
   c6_mask_bound_and_profile.2.1 vScrews 0 171 (by norm_num [vScrews]),
   c6_mask_bound_and_profile.2.2 screwTable 100 171 rfl 7 7⟩

/-- Characterisation of `Int.log 2` on `ℚ` by a two-sided power bound. -/
theorem int_log2_eq {a : ℚ} {k : ℤ} (h1 : (2:ℚ) ^ k ≤ a) (h2 : a < 2 ^ (k + 1)) :
    Int.log 2 a = k := by
  have ha : 0 < a := lt_of_lt_of_le (zpow_pos (by norm_num) k) h1
  have hlow := Int.zpow_log_le_self (b := 2) (R := ℚ) (by norm_num) ha
  have hhigh := Int.lt_zpow_succ_log_self (b := 2) (R := ℚ) (by norm_num) a
  simp only [Nat.cast_ofNat] at hlow hhigh
  have h3 : Int.log 2 a < k + 1 := by
    rw [← zpow_lt_zpow_iff_right₀ (show (1:ℚ) < 2 by norm_num)]
    exact lt_of_le_of_lt hlow h2
  have h4 : k < Int.log 2 a + 1 := by
    rw [← zpow_lt_zpow_iff_right₀ (show (1:ℚ) < 2 by norm_num)]
    exact lt_of_le_of_lt h1 hhigh
  omega

theorem int_log2_eq_sub {a : ℚ} {w : ℕ} (h1 : (2:ℚ) ^ 23 ≤ a * 2 ^ w)
    (h2 : a * 2 ^ w < 2 ^ 24) : Int.log 2 a = 23 - (w : ℤ) := by
  have hw : (0:ℚ) < 2 ^ w := by positivity
  apply int_log2_eq
  · have hX : (2:ℚ) ^ ((23:ℤ) - w) * 2 ^ w = 2 ^ (23:ℕ) := by
      rw [show ((2:ℚ) ^ (w:ℕ)) = (2:ℚ) ^ (w:ℤ) from (zpow_natCast 2 w).symm,
        ← zpow_add₀ (by norm_num : (2:ℚ) ≠ 0), sub_add_cancel]
      norm_num
    rw [← mul_le_mul_right hw, hX]
    exact h1
  · have hY : (2:ℚ) ^ ((23:ℤ) - w + 1) * 2 ^ w = 2 ^ (24:ℕ) := by
      rw [show ((2:ℚ) ^ (w:ℕ)) = (2:ℚ) ^ (w:ℤ) from (zpow_natCast 2 w).symm,
        ← zpow_add₀ (by norm_num : (2:ℚ) ≠ 0),
        show (23:ℤ) - w + 1 + w = 24 from by ring]
      norm_num
    rw [← mul_lt_mul_right hw, hY]
    exact h2

/-- Evaluation rule for `roundF32Pos` when the scaled significand rounds
down: `w` scales `a` so the significand lies in `[2^23, 2^24)` and the
fractional part is below one half. -/
theorem roundF32Pos_down (a : ℚ) (w n : ℕ)
    (h1 : (2:ℚ) ^ 23 ≤ a * 2 ^ w) (h2 : a * 2 ^ w < 2 ^ 24)
    (hn1 : (n:ℚ) ≤ a * 2 ^ w) (hn2 : a * 2 ^ w - n < 1 / 2) :
    roundF32Pos a = n / 2 ^ w := by
  have hw : (0:ℚ) < 2 ^ w := by positivity
  have h23 : (0:ℚ) < 2 ^ 23 := by positivity
  have ha : 0 < a := by nlinarith
  unfold roundF32Pos
  rw [if_neg (ne_of_gt ha)]
  rw [int_log2_eq_sub h1 h2]
  rw [show (23 - (w:ℤ)) - 23 = -(w:ℤ) from by ring]
  rw [zpow_neg, zpow_natCast, div_inv_eq_mul]
  have hfl : ⌊a * 2 ^ w⌋ = (n:ℤ) := by
    rw [Int.floor_eq_iff]
    exact ⟨by exact_mod_cast hn1, by push_cast; linarith⟩
  unfold roundMantissa
  rw [hfl]
  rw [if_pos (by push_cast; linarith)]
  push_cast
  rw [div_eq_mul_inv]

/-- Evaluation rule for `roundF32Pos` when the scaled significand rounds
up: the fractional part is above one half. -/
theorem roundF32Pos_up (a : ℚ) (w n : ℕ)
    (h1 : (2:ℚ) ^ 23 ≤ a * 2 ^ w) (h2 : a * 2 ^ w < 2 ^ 24)
    (hn1 : 1 / 2 < a * 2 ^ w - n) (hn2 : a * 2 ^ w < n + 1) :
    roundF32Pos a = (n + 1) / 2 ^ w := by
  have hw : (0:ℚ) < 2 ^ w := by positivity
  have h23 : (0:ℚ) < 2 ^ 23 := by positivity
  have ha : 0 < a := by nlinarith
  unfold roundF32Pos
  rw [if_neg (ne_of_gt ha)]
  rw [int_log2_eq_sub h1 h2]
  rw [show (23 - (w:ℤ)) - 23 = -(w:ℤ) from by ring]
  rw [zpow_neg, zpow_natCast, div_inv_eq_mul]
  have hfl : ⌊a * 2 ^ w⌋ = (n:ℤ) := by
    rw [Int.floor_eq_iff]
    exact ⟨by push_cast; linarith, by push_cast; linarith⟩
  unfold roundMantissa
  rw [hfl]
  rw [if_neg (by push_cast; linarith)]
  rw [if_pos (by push_cast; linarith)]
  push_cast
  rw [div_eq_mul_inv, add_mul]

/-- Evaluation rule for `roundF32Pos` at an exact tie with an odd
significand: ties go to the even neighbour above. -/
theorem roundF32Pos_tie_up (a : ℚ) (w n : ℕ)
    (h1 : (2:ℚ) ^ 23 ≤ a * 2 ^ w) (h2 : a * 2 ^ w < 2 ^ 24)
    (hn : a * 2 ^ w - n = 1 / 2) (hodd : n % 2 = 1) :
    roundF32Pos a = (n + 1) / 2 ^ w := by
  have hw : (0:ℚ) < 2 ^ w := by positivity
  have h23 : (0:ℚ) < 2 ^ 23 := by positivity
  have ha : 0 < a := by nlinarith
  unfold roundF32Pos
  rw [if_neg (ne_of_gt ha)]
  rw [int_log2_eq_sub h1 h2]
  rw [show (23 - (w:ℤ)) - 23 = -(w:ℤ) from by ring]
  rw [zpow_neg, zpow_natCast, div_inv_eq_mul]
  have hfl : ⌊a * 2 ^ w⌋ = (n:ℤ) := by
    rw [Int.floor_eq_iff]
    exact ⟨by push_cast; linarith, by push_cast; linarith⟩
  unfold roundMantissa
  rw [hfl]
  rw [if_neg (by push_cast; linarith)]
  rw [if_neg (by push_cast; linarith)]
  rw [if_neg (by omega)]
  push_cast
  rw [div_eq_mul_inv, add_mul]

theorem roundF32_of_nonneg (a : ℚ) (ha : 0 ≤ a) : roundF32 a = roundF32Pos a := by
  unfold roundF32
  rw [if_neg (not_lt.mpr ha)]

theorem roundF32_of_neg (a : ℚ) (ha : 0 < a) : roundF32 (-a) = -roundF32Pos a := by
  unfold roundF32
  rw [if_pos (neg_lt_zero.mpr ha), neg_neg]

-- test instances

theorem roundF32_neg (q : ℚ) : roundF32 (-q) = -roundF32 q := by
  rcases lt_trichotomy q 0 with h | h | h
  · unfold roundF32
    rw [if_neg (not_lt.mpr (by linarith : (0:ℚ) ≤ -q)), if_pos h, neg_neg]
  · subst h
    simp [roundF32, roundF32Pos]
  · unfold roundF32
    rw [if_pos (by linarith : -q < 0), if_neg (not_lt.mpr (le_of_lt h)), neg_neg]

/-- Evaluation rule for `sqrtF32` on arguments in the binade `[8, 16)`
(the only binade needed below) when the root's scaled significand rounds
down to `n`. -/
theorem sqrtF32_eval (s v : ℚ) (n : ℕ)
    (h8 : (8:ℚ) ≤ s) (h16 : s < 16)
    (hn1 : (n:ℚ) * n ≤ s * 2 ^ 44) (hdown : s * 2 ^ 44 < ((n:ℚ) + 1 / 2) ^ 2)
    (hv : (n:ℚ) = v * 2 ^ 22) :
    sqrtF32 s = v := by
  have hs : 0 < s := by linarith
  have hn0 : (0:ℚ) ≤ (n:ℚ) := Nat.cast_nonneg n
  unfold sqrtF32
  rw [if_neg (not_le.mpr hs)]
  have hlog : Int.log 2 s = 3 := by
    apply int_log2_eq
    · rw [show ((2:ℚ) ^ (3:ℤ)) = 8 from by norm_num]
      exact h8
    · rw [show ((2:ℚ) ^ ((3:ℤ) + 1)) = 16 from by norm_num]
      exact h16
  unfold sqrtExp
  rw [hlog]
  rw [if_neg (by decide)]
  rw [show ((3:ℤ) - 1) / 2 - 23 = -(22:ℤ) from by decide]
  rw [show ((4:ℚ)) ^ (-(22:ℤ)) = ((2:ℚ) ^ (44:ℕ))⁻¹ from by rw [zpow_neg]; norm_num]
  rw [show ((2:ℚ)) ^ (-(22:ℤ)) = ((2:ℚ) ^ (22:ℕ))⁻¹ from by rw [zpow_neg]; norm_num]
  rw [div_inv_eq_mul]
  have h0 : (0:ℚ) ≤ s * 2 ^ 44 := by positivity
  have hfl_lb : (n:ℤ) * n ≤ ⌊s * 2 ^ 44⌋ := Int.le_floor.mpr (by exact_mod_cast hn1)
  have hub : s * 2 ^ 44 < ((n:ℚ) + 1) * ((n:ℚ) + 1) := by nlinarith [hdown]
  have hfl_ub : ⌊s * 2 ^ 44⌋ < ((n:ℤ) + 1) * ((n:ℤ) + 1) := Int.floor_lt.mpr (by push_cast; linarith [hub])
  have hsq : Nat.sqrt (Int.toNat ⌊s * 2 ^ 44⌋) = n := by
    obtain ⟨N, hN⟩ : ∃ N : ℕ, ⌊s * 2 ^ 44⌋ = (N:ℤ) :=
      ⟨(⌊s * 2 ^ 44⌋).toNat, (Int.toNat_of_nonneg (Int.floor_nonneg.mpr h0)).symm⟩
    rw [hN] at hfl_lb hfl_ub
    rw [hN, Int.toNat_ofNat]
    symm
    rw [Nat.eq_sqrt]
    exact ⟨by exact_mod_cast hfl_lb, by exact_mod_cast hfl_ub⟩
  unfold roundSqrtMantissa
  rw [hsq]
  rw [if_pos hdown]
  rw [hv, mul_assoc, mul_inv_cancel₀ (by norm_num : ((2:ℚ) ^ (22:ℕ)) ≠ 0), mul_one]

/-- Swapping the endpoints negates both differences exactly, and rounding
commutes with negation, so the rounded slope is endpoint-symmetric. -/
theorem slopeMF32_symm (p1 p2 : ℚ × ℚ) : slopeMF32 p2 p1 = slopeMF32 p1 p2 := by
  unfold slopeMF32 divF32 subF32
  rw [show p1.2 - p2.2 = -(p2.2 - p1.2) from by ring,
    show p1.1 - p2.1 = -(p2.1 - p1.1) from by ring]
  rw [roundF32_neg, roundF32_neg, neg_div_neg_eq]

/-- The rounded intercept for the chord from anchor 0 to anchor 23. -/
theorem interceptCF32_eval_A : interceptCF32 (screwTable 0) (screwTable 23) = 10122971 / 8192 := by
  have hsI : screwTable 0 = ((300 : ℚ), (150 : ℚ)) := rfl
  have hsJ : screwTable 23 = ((279 : ℚ), (226 : ℚ)) := rfl
  have hady : subF32 (226) (150) = 76 := by
    unfold subF32
    rw [show ((226) - (150) : ℚ) = 76 from by norm_num]
    rw [roundF32_of_nonneg (76) (by norm_num)]
    rw [roundF32Pos_down (76) 17 9961472 (by norm_num) (by norm_num) (by norm_num) (by norm_num)]
    norm_num
  have hadx : subF32 (279) (300) = -(21) := by
    unfold subF32
    rw [show ((279) - (300) : ℚ) = -(21) from by norm_num]
    rw [roundF32_of_neg (21) (by norm_num)]
    rw [roundF32Pos_down (21) 19 11010048 (by norm_num) (by norm_num) (by norm_num) (by norm_num)]
    norm_num
  have ham : divF32 (76) (-(21)) = -(7589693 / 2097152) := by
    unfold divF32
    rw [show ((76) / (-(21)) : ℚ) = -(76 / 21) from by norm_num]
    rw [roundF32_of_neg (76 / 21) (by norm_num)]
    rw [roundF32Pos_up (76 / 21) 22 15179385 (by norm_num) (by norm_num) (by norm_num) (by norm_num)]
    norm_num
  have hat : mulF32 (-(7589693 / 2097152)) (300) = -(8894171 / 8192) := by
    unfold mulF32
    rw [show ((-(7589693 / 2097152)) * (300) : ℚ) = -(569226975 / 524288) from by norm_num]
    rw [roundF32_of_neg (569226975 / 524288) (by norm_num)]
    rw [roundF32Pos_down (569226975 / 524288) 13 8894171 (by norm_num) (by norm_num) (by norm_num) (by norm_num)]
    norm_num
  have hac : subF32 (150) (-(8894171 / 8192)) = 10122971 / 8192 := by
    unfold subF32
    rw [show ((150) - (-(8894171 / 8192)) : ℚ) = 10122971 / 8192 from by norm_num]
    rw [roundF32_of_nonneg (10122971 / 8192) (by norm_num)]
    rw [roundF32Pos_down (10122971 / 8192) 13 10122971 (by norm_num) (by norm_num) (by norm_num) (by norm_num)]
    norm_num
  rw [hsI, hsJ]
  unfold interceptCF32 slopeMF32
  dsimp only
  rw [hady, hadx, ham, hat, hac]

/-- The rounded intercept for the same chord traversed from anchor 23 to
anchor 0: it differs from the other traversal in the last place. -/
theorem interceptCF32_eval_B : interceptCF32 (screwTable 23) (screwTable 0) = 2530743 / 2048 := by
  have hsI : screwTable 23 = ((279 : ℚ), (226 : ℚ)) := rfl
  have hsJ : screwTable 0 = ((300 : ℚ), (150 : ℚ)) := rfl
  have hbdy : subF32 (150) (226) = -(76) := by
    unfold subF32
    rw [show ((150) - (226) : ℚ) = -(76) from by norm_num]
    rw [roundF32_of_neg (76) (by norm_num)]
    rw [roundF32Pos_down (76) 17 9961472 (by norm_num) (by norm_num) (by norm_num) (by norm_num)]
    norm_num
  have hbdx : subF32 (300) (279) = 21 := by
    unfold subF32
    rw [show ((300) - (279) : ℚ) = 21 from by norm_num]
    rw [roundF32_of_nonneg (21) (by norm_num)]
    rw [roundF32Pos_down (21) 19 11010048 (by norm_num) (by norm_num) (by norm_num) (by norm_num)]
    norm_num
  have hbm : divF32 (-(76)) (21) = -(7589693 / 2097152) := by
    unfold divF32
    rw [show ((-(76)) / (21) : ℚ) = -(76 / 21) from by norm_num]
    rw [roundF32_of_neg (76 / 21) (by norm_num)]
    rw [roundF32Pos_up (76 / 21) 22 15179385 (by norm_num) (by norm_num) (by norm_num) (by norm_num)]
    norm_num
  have hbt : mulF32 (-(7589693 / 2097152)) (279) = -(16543159 / 16384) := by
    unfold mulF32
    rw [show ((-(7589693 / 2097152)) * (279) : ℚ) = -(2117524347 / 2097152) from by norm_num]
    rw [roundF32_of_neg (2117524347 / 2097152) (by norm_num)]
    rw [roundF32Pos_up (2117524347 / 2097152) 14 16543158 (by norm_num) (by norm_num) (by norm_num) (by norm_num)]
    norm_num
  have hbc : subF32 (226) (-(16543159 / 16384)) = 2530743 / 2048 := by
    unfold subF32
    rw [show ((226) - (-(16543159 / 16384)) : ℚ) = 20245943 / 16384 from by norm_num]
    rw [roundF32_of_nonneg (20245943 / 16384) (by norm_num)]
    rw [roundF32Pos_tie_up (20245943 / 16384) 13 10122971 (by norm_num) (by norm_num) (by norm_num) (by norm_num)]
    norm_num
  rw [hsI, hsJ]
  unfold interceptCF32 slopeMF32
  dsimp only
  rw [hbdy, hbdx, hbm, hbt, hbc]

/-- The rounded mask value at pixel `(x, y) = (281, 221)` for the chord
generated from anchor 0 to anchor 23. -/
theorem maskF32_eval_A : generate_line_maskF32 0 23 screwTable 221 281 = 65415 / 16777216 := by
  have hsI : screwTable 0 = ((300 : ℚ), (150 : ℚ)) := rfl
  have hsJ : screwTable 23 = ((279 : ℚ), (226 : ℚ)) := rfl
  have hady : subF32 (226) (150) = 76 := by
    unfold subF32
    rw [show ((226) - (150) : ℚ) = 76 from by norm_num]
    rw [roundF32_of_nonneg (76) (by norm_num)]
    rw [roundF32Pos_down (76) 17 9961472 (by norm_num) (by norm_num) (by norm_num) (by norm_num)]
    norm_num
  have hadx : subF32 (279) (300) = -(21) := by
    unfold subF32
    rw [show ((279) - (300) : ℚ) = -(21) from by norm_num]
    rw [roundF32_of_neg (21) (by norm_num)]
    rw [roundF32Pos_down (21) 19 11010048 (by norm_num) (by norm_num) (by norm_num) (by norm_num)]
    norm_num
  have ham : divF32 (76) (-(21)) = -(7589693 / 2097152) := by
    unfold divF32
    rw [show ((76) / (-(21)) : ℚ) = -(76 / 21) from by norm_num]
    rw [roundF32_of_neg (76 / 21) (by norm_num)]
    rw [roundF32Pos_up (76 / 21) 22 15179385 (by norm_num) (by norm_num) (by norm_num) (by norm_num)]
    norm_num
  have hat : mulF32 (-(7589693 / 2097152)) (300) = -(8894171 / 8192) := by
    unfold mulF32
    rw [show ((-(7589693 / 2097152)) * (300) : ℚ) = -(569226975 / 524288) from by norm_num]
    rw [roundF32_of_neg (569226975 / 524288) (by norm_num)]
    rw [roundF32Pos_down (569226975 / 524288) 13 8894171 (by norm_num) (by norm_num) (by norm_num) (by norm_num)]
    norm_num
  have hac : subF32 (150) (-(8894171 / 8192)) = 10122971 / 8192 := by
    unfold subF32
    rw [show ((150) - (-(8894171 / 8192)) : ℚ) = 10122971 / 8192 from by norm_num]
    rw [roundF32_of_nonneg (10122971 / 8192) (by norm_num)]
    rw [roundF32Pos_down (10122971 / 8192) 13 10122971 (by norm_num) (by norm_num) (by norm_num) (by norm_num)]
    norm_num
  have hau1 : mulF32 (-(7589693 / 2097152)) (281) = -(4165437 / 4096) := by
    unfold mulF32
    rw [show ((-(7589693 / 2097152)) * (281) : ℚ) = -(2132703733 / 2097152) from by norm_num]
    rw [roundF32_of_neg (2132703733 / 2097152) (by norm_num)]
    rw [roundF32Pos_up (2132703733 / 2097152) 14 16661747 (by norm_num) (by norm_num) (by norm_num) (by norm_num)]
    norm_num
  have hau2 : subF32 (-(4165437 / 4096)) (221) = -(5070653 / 4096) := by
    unfold subF32
    rw [show ((-(4165437 / 4096)) - (221) : ℚ) = -(5070653 / 4096) from by norm_num]
    rw [roundF32_of_neg (5070653 / 4096) (by norm_num)]
    rw [roundF32Pos_down (5070653 / 4096) 13 10141306 (by norm_num) (by norm_num) (by norm_num) (by norm_num)]
    norm_num
  have hau3 : addF32 (-(5070653 / 4096)) (10122971 / 8192) = -(18335 / 8192) := by
    unfold addF32
    rw [show ((-(5070653 / 4096)) + (10122971 / 8192) : ℚ) = -(18335 / 8192) from by norm_num]
    rw [roundF32_of_neg (18335 / 8192) (by norm_num)]
    rw [roundF32Pos_down (18335 / 8192) 22 9387520 (by norm_num) (by norm_num) (by norm_num) (by norm_num)]
    norm_num
  have had1 : mulF32 (-(7589693 / 2097152)) (-(7589693 / 2097152)) = 6866865 / 524288 := by
    unfold mulF32
    rw [show ((-(7589693 / 2097152)) * (-(7589693 / 2097152)) : ℚ) = 57603439834249 / 4398046511104 from by norm_num]
    rw [roundF32_of_nonneg (57603439834249 / 4398046511104) (by norm_num)]
    rw [roundF32Pos_down (57603439834249 / 4398046511104) 20 13733730 (by norm_num) (by norm_num) (by norm_num) (by norm_num)]
    norm_num
  have had2 : addF32 (6866865 / 524288) (1) = 7391153 / 524288 := by
    unfold addF32
    rw [show ((6866865 / 524288) + (1) : ℚ) = 7391153 / 524288 from by norm_num]
    rw [roundF32_of_nonneg (7391153 / 524288) (by norm_num)]
    rw [roundF32Pos_down (7391153 / 524288) 20 14782306 (by norm_num) (by norm_num) (by norm_num) (by norm_num)]
    norm_num
  have hasq : sqrtF32 (7391153 / 524288) = 3937051 / 1048576 := by
    exact sqrtF32_eval (7391153 / 524288) (3937051 / 1048576) 15748204 (by norm_num) (by norm_num) (by norm_num) (by norm_num) (by norm_num)
  have hadist : divF32 (18335 / 8192) (3937051 / 1048576) = 10000915 / 16777216 := by
    unfold divF32
    rw [show ((18335 / 8192) / (3937051 / 1048576) : ℚ) = 2346880 / 3937051 from by norm_num]
    rw [roundF32_of_nonneg (2346880 / 3937051) (by norm_num)]
    rw [roundF32Pos_down (2346880 / 3937051) 24 10000915 (by norm_num) (by norm_num) (by norm_num) (by norm_num)]
    norm_num
  have hac06 : roundF32 (6 / 10) = 5033165 / 8388608 := by
    rw [show (6 / 10 : ℚ) = 3 / 5 from by norm_num]
    rw [roundF32_of_nonneg (3 / 5) (by norm_num)]
    rw [roundF32Pos_up (3 / 5) 24 10066329 (by norm_num) (by norm_num) (by norm_num) (by norm_num)]
    norm_num
  have hac005 : roundF32 (5 / 100) = 13421773 / 268435456 := by
    rw [show (5 / 100 : ℚ) = 1 / 20 from by norm_num]
    rw [roundF32_of_nonneg (1 / 20) (by norm_num)]
    rw [roundF32Pos_up (1 / 20) 28 13421772 (by norm_num) (by norm_num) (by norm_num) (by norm_num)]
    norm_num
  have haps : subF32 (5033165 / 8388608) (10000915 / 16777216) = 65415 / 16777216 := by
    unfold subF32
    rw [show ((5033165 / 8388608) - (10000915 / 16777216) : ℚ) = 65415 / 16777216 from by norm_num]
    rw [roundF32_of_nonneg (65415 / 16777216) (by norm_num)]
    rw [roundF32Pos_down (65415 / 16777216) 32 16746240 (by norm_num) (by norm_num) (by norm_num) (by norm_num)]
    norm_num
  unfold generate_line_maskF32
  rw [if_neg (show ¬((outsideCircle 281 221 && CROP_TO_CIRCLE) = true) from by
    rw [show outsideCircle 281 221 = false from by
      unfold outsideCircle; exact decide_eq_false (by norm_num [SIZE])]
    decide)]
  rw [hsI, hsJ]
  unfold point_profileF32 lineDistF32 interceptCF32 slopeMF32
  dsimp only
  push_cast
  rw [hady, hadx, ham, hat, hac, hau1, hau2]
  rw [hau3]
  rw [show |(-(18335 / 8192) : ℚ)| = (18335 / 8192 : ℚ) from by rw [abs_neg]; exact abs_of_nonneg (by norm_num)]
  rw [had1, had2, hasq, hadist, hac06, hac005]
  rw [show |(10000915 / 16777216 : ℚ)| = (10000915 / 16777216 : ℚ) from abs_of_nonneg (by norm_num)]
  rw [haps]
  rw [max_eq_left (by norm_num), min_eq_left (by norm_num)]

/-- The rounded mask value at the same pixel for the swapped argument
order: the intercepts differ in the last place and the difference
propagates to the mask entry. -/
theorem maskF32_eval_B : generate_line_maskF32 23 0 screwTable 221 281 = 8245 / 2097152 := by
  have hsI : screwTable 23 = ((279 : ℚ), (226 : ℚ)) := rfl
  have hsJ : screwTable 0 = ((300 : ℚ), (150 : ℚ)) := rfl
  have hbdy : subF32 (150) (226) = -(76) := by
    unfold subF32
    rw [show ((150) - (226) : ℚ) = -(76) from by norm_num]
    rw [roundF32_of_neg (76) (by norm_num)]
    rw [roundF32Pos_down (76) 17 9961472 (by norm_num) (by norm_num) (by norm_num) (by norm_num)]
    norm_num
  have hbdx : subF32 (300) (279) = 21 := by
    unfold subF32
    rw [show ((300) - (279) : ℚ) = 21 from by norm_num]
    rw [roundF32_of_nonneg (21) (by norm_num)]
    rw [roundF32Pos_down (21) 19 11010048 (by norm_num) (by norm_num) (by norm_num) (by norm_num)]
    norm_num
  have hbm : divF32 (-(76)) (21) = -(7589693 / 2097152) := by
    unfold divF32
    rw [show ((-(76)) / (21) : ℚ) = -(76 / 21) from by norm_num]
    rw [roundF32_of_neg (76 / 21) (by norm_num)]
    rw [roundF32Pos_up (76 / 21) 22 15179385 (by norm_num) (by norm_num) (by norm_num) (by norm_num)]
    norm_num
  have hbt : mulF32 (-(7589693 / 2097152)) (279) = -(16543159 / 16384) := by
    unfold mulF32
    rw [show ((-(7589693 / 2097152)) * (279) : ℚ) = -(2117524347 / 2097152) from by norm_num]
    rw [roundF32_of_neg (2117524347 / 2097152) (by norm_num)]
    rw [roundF32Pos_up (2117524347 / 2097152) 14 16543158 (by norm_num) (by norm_num) (by norm_num) (by norm_num)]
    norm_num
  have hbc : subF32 (226) (-(16543159 / 16384)) = 2530743 / 2048 := by
    unfold subF32
    rw [show ((226) - (-(16543159 / 16384)) : ℚ) = 20245943 / 16384 from by norm_num]
    rw [roundF32_of_nonneg (20245943 / 16384) (by norm_num)]
    rw [roundF32Pos_tie_up (20245943 / 16384) 13 10122971 (by norm_num) (by norm_num) (by norm_num) (by norm_num)]
    norm_num
  have hbu1 : mulF32 (-(7589693 / 2097152)) (281) = -(4165437 / 4096) := by
    unfold mulF32
    rw [show ((-(7589693 / 2097152)) * (281) : ℚ) = -(2132703733 / 2097152) from by norm_num]
    rw [roundF32_of_neg (2132703733 / 2097152) (by norm_num)]
    rw [roundF32Pos_up (2132703733 / 2097152) 14 16661747 (by norm_num) (by norm_num) (by norm_num) (by norm_num)]
    norm_num
  have hbu2 : subF32 (-(4165437 / 4096)) (221) = -(5070653 / 4096) := by
    unfold subF32
    rw [show ((-(4165437 / 4096)) - (221) : ℚ) = -(5070653 / 4096) from by norm_num]
    rw [roundF32_of_neg (5070653 / 4096) (by norm_num)]
    rw [roundF32Pos_down (5070653 / 4096) 13 10141306 (by norm_num) (by norm_num) (by norm_num) (by norm_num)]
    norm_num
  have hbu3 : addF32 (-(5070653 / 4096)) (2530743 / 2048) = -(9167 / 4096) := by
    unfold addF32
    rw [show ((-(5070653 / 4096)) + (2530743 / 2048) : ℚ) = -(9167 / 4096) from by norm_num]
    rw [roundF32_of_neg (9167 / 4096) (by norm_num)]
    rw [roundF32Pos_down (9167 / 4096) 22 9387008 (by norm_num) (by norm_num) (by norm_num) (by norm_num)]
    norm_num
  have hbd1 : mulF32 (-(7589693 / 2097152)) (-(7589693 / 2097152)) = 6866865 / 524288 := by
    unfold mulF32
    rw [show ((-(7589693 / 2097152)) * (-(7589693 / 2097152)) : ℚ) = 57603439834249 / 4398046511104 from by norm_num]
    rw [roundF32_of_nonneg (57603439834249 / 4398046511104) (by norm_num)]
    rw [roundF32Pos_down (57603439834249 / 4398046511104) 20 13733730 (by norm_num) (by norm_num) (by norm_num) (by norm_num)]
    norm_num
  have hbd2 : addF32 (6866865 / 524288) (1) = 7391153 / 524288 := by
    unfold addF32
    rw [show ((6866865 / 524288) + (1) : ℚ) = 7391153 / 524288 from by norm_num]
    rw [roundF32_of_nonneg (7391153 / 524288) (by norm_num)]
    rw [roundF32Pos_down (7391153 / 524288) 20 14782306 (by norm_num) (by norm_num) (by norm_num) (by norm_num)]
    norm_num
  have hbsq : sqrtF32 (7391153 / 524288) = 3937051 / 1048576 := by
    exact sqrtF32_eval (7391153 / 524288) (3937051 / 1048576) 15748204 (by norm_num) (by norm_num) (by norm_num) (by norm_num) (by norm_num)
  have hbdist : divF32 (9167 / 4096) (3937051 / 1048576) = 5000185 / 8388608 := by
    unfold divF32
    rw [show ((9167 / 4096) / (3937051 / 1048576) : ℚ) = 2346752 / 3937051 from by norm_num]
    rw [roundF32_of_nonneg (2346752 / 3937051) (by norm_num)]
    rw [roundF32Pos_up (2346752 / 3937051) 24 10000369 (by norm_num) (by norm_num) (by norm_num) (by norm_num)]
    norm_num
  have hbc06 : roundF32 (6 / 10) = 5033165 / 8388608 := by
    rw [show (6 / 10 : ℚ) = 3 / 5 from by norm_num]
    rw [roundF32_of_nonneg (3 / 5) (by norm_num)]
    rw [roundF32Pos_up (3 / 5) 24 10066329 (by norm_num) (by norm_num) (by norm_num) (by norm_num)]
    norm_num
  have hbc005 : roundF32 (5 / 100) = 13421773 / 268435456 := by
    rw [show (5 / 100 : ℚ) = 1 / 20 from by norm_num]
    rw [roundF32_of_nonneg (1 / 20) (by norm_num)]
    rw [roundF32Pos_up (1 / 20) 28 13421772 (by norm_num) (by norm_num) (by norm_num) (by norm_num)]
    norm_num
  have hbps : subF32 (5033165 / 8388608) (5000185 / 8388608) = 8245 / 2097152 := by
    unfold subF32
    rw [show ((5033165 / 8388608) - (5000185 / 8388608) : ℚ) = 8245 / 2097152 from by norm_num]
    rw [roundF32_of_nonneg (8245 / 2097152) (by norm_num)]
    rw [roundF32Pos_down (8245 / 2097152) 31 8442880 (by norm_num) (by norm_num) (by norm_num) (by norm_num)]
    norm_num
  unfold generate_line_maskF32
  rw [if_neg (show ¬((outsideCircle 281 221 && CROP_TO_CIRCLE) = true) from by
    rw [show outsideCircle 281 221 = false from by
      unfold outsideCircle; exact decide_eq_false (by norm_num [SIZE])]
    decide)]
  rw [hsI, hsJ]
  unfold point_profileF32 lineDistF32 interceptCF32 slopeMF32
  dsimp only
  push_cast
  rw [hbdy, hbdx, hbm, hbt, hbc, hbu1, hbu2]
  rw [hbu3]
  rw [show |(-(9167 / 4096) : ℚ)| = (9167 / 4096 : ℚ) from by rw [abs_neg]; exact abs_of_nonneg (by norm_num)]
  rw [hbd1, hbd2, hbsq, hbdist, hbc06, hbc005]
  rw [show |(5000185 / 8388608 : ℚ)| = (5000185 / 8388608 : ℚ) from abs_of_nonneg (by norm_num)]
  rw [hbps]
  rw [max_eq_left (by norm_num), min_eq_left (by norm_num)]

/-- C7 (counterexample): for the admissible anchor pair `(0, 23)` the `f32`
intercept `c = y1 - m * x1` depends on the argument order: the two
traversals give `1235.7142333984375` and `1235.71435546875`, and at the
in-disk pixel `(x, y) = (281, 221)` the two rounded masks differ
(`0.0038990378...` against `0.0039315223...`), so the mask applied after
selection (generated with the arguments swapped) is not the grid that was
scored. -/
theorem c7_counterexample :
    sepOK 0 23 = true ∧
    interceptCF32 (screwTable 0) (screwTable 23) = 10122971 / 8192 ∧
    interceptCF32 (screwTable 23) (screwTable 0) = 2530743 / 2048 ∧
    generate_line_maskF32 0 23 screwTable 221 281 = 65415 / 16777216 ∧
    generate_line_maskF32 23 0 screwTable 221 281 = 8245 / 2097152 ∧
    decide ((65415 : ℚ) / 16777216 = 8245 / 2097152) = false :=
  ⟨by decide, interceptCF32_eval_A, interceptCF32_eval_B, maskF32_eval_A, maskF32_eval_B,
    decide_eq_false (by norm_num)⟩

/-- C7 (amended): the chord mask is symmetric in the anchor pair only up to
`f32` rounding: in exact arithmetic the swapped-argument mask equals the
scored mask (first conjunct, over the exact model), and the rounded slope
is endpoint-symmetric because both differences negate exactly (second
conjunct), but the rounded intercept is not, so the applied mask can differ
from the scored grid at ulp level. -/
theorem c7_symmetric_up_to_rounding :
    (∀ (screws : ℕ → ℚ × ℚ) (i j y x : ℕ),
      generate_line_mask i j screws y x = generate_line_mask j i screws y x) ∧
    (∀ p1 p2 : ℚ × ℚ, slopeMF32 p2 p1 = slopeMF32 p1 p2) :=
  ⟨fun screws i j y x => generate_line_mask_symm i j screws y x,
   fun p1 p2 => slopeMF32_symm p1 p2⟩

/-- C8 (counterexample): a final working-grid value of `0.05` (one full chord
contribution) is written as `trunc(0.05 * 255) = 12`, while the spec's
mapping `round(min(v, 1) * 255)` gives `13`. -/
theorem c8_counterexample :
    savePixel (.fin (1 / 20)) = 12 ∧ spec_savePixel (1 / 20) = 13 := by
  constructor
  · unfold savePixel
    norm_num
    rfl
  · unfold spec_savePixel
    norm_num [round_eq]

/-- C8 (amended): the written pixel is the saturating truncation toward zero
of `v * 255`: for a finite `v = q ≥ 0` it is `min(floor(q * 255), 255)` (not
`round(min(v, 1) * 255)`), and it always fits in one byte. -/
theorem c8_save_truncates (q : ℚ) (hq : 0 ≤ q) :
    savePixel (.fin q) = min (Int.toNat (Int.floor (q * 255))) 255 ∧
      savePixel (.fin q) ≤ 255 := by
  have h1 : savePixel (.fin q) = min (Int.toNat (Int.floor (q * 255))) 255 := by
    simp only [savePixel, fmul_fin_fin]
    rw [if_neg (not_lt.mpr (by positivity))]
  exact ⟨h1, h1 ▸ min_le_right _ _⟩

theorem c8_save_truncates_witness :
    savePixel (.fin (3 / 10)) =
      min (Int.toNat (Int.floor ((3 / 10 : ℚ) * 255))) 255 ∧
    savePixel (.fin (3 / 10)) ≤ 255 :=
  c8_save_truncates (3 / 10) (by norm_num)

/-- C9 (counterexample): the source unwraps the frame-update result, so a
failing update panics; it is not treated as a shutdown signal. -/
theorem c9_counterexample :
    handleFrameUpdate (Except.error "frame update failed")
      = FrameOutcome.panicked ∧
    (FrameOutcome.panicked == FrameOutcome.shutdown) = false :=
  ⟨rfl, rfl⟩

/-- C9 (amended): a failure of the sink's frame update makes the process
panic (abnormal termination), while a successful update continues the loop;
only window-close and stall end the run normally. -/
theorem c9_frame_failure_panics :
    (∀ e : String, handleFrameUpdate (Except.error e) = FrameOutcome.panicked) ∧
    handleFrameUpdate (Except.ok ()) = FrameOutcome.cont :=
  ⟨fun _ => rfl, rfl⟩

/-- C10: every candidate pushed into `permutations` passed its final
threshold check, so after sorting the best candidate still meets the
threshold, the re-scan index stays `0`, and the `panic!("x is not 0")`
branch is unreachable in every iteration from every state. -/
theorem c10_panic_unreachable (ideal : ℕ → ℕ → ℚ) (screws : ℕ → ℚ × ℚ)
    (s : LoopState) : isPanicked (step ideal screws s) = false :=
  step_not_panicked ideal screws s

/-- C4 (counterexample): with the all-zero (all-white) target the selector
does not terminate immediately: after one iteration the accepted-chord count
is `1`, not `0`. -/
theorem c4_counterexample : (run allZeroIdeal screwTable 1).accepted = 1 :=
  run_one_accepted screwTable

/-- C4 (amended): with the all-zero target the first iteration always accepts
a chord (the sentinel `old_closeness = 100000` exceeds every candidate loss),
and from then on the accepted count stays at least `1`. -/
theorem c4_all_white_accepts (n : ℕ) :
    1 ≤ (run allZeroIdeal screwTable (n + 1)).accepted ∧
    isAccepted (step allZeroIdeal screwTable initialState) = true := by
  constructor
  · induction n with
    | zero => rw [run_one_accepted screwTable]
    | succ n ih =>
      exact le_trans ih (run_accepted_mono allZeroIdeal screwTable (n + 1))
  · exact firstStep_accepts screwTable

/-- With the initial all-zero grid and a `[0, 1]`-bounded target, the
candidate `(100, 171)` is never skipped: every partial closeness stays far
below the sentinel budget `100000 + 1/2`. -/
theorem initial_vertical_pushed (ideal : ℕ → ℕ → ℚ)
    (hideal : ∀ y x, 0 ≤ ideal y x ∧ ideal y x ≤ 1) :
    (score (.fin 100000) ideal initialState.image
      (generate_line_mask 100 171 screwTable)).skip = false := by
  unfold score
  apply scoreFold_no_skip_of_bounded 100000 ideal initialState.image
    (generate_line_mask 100 171 screwTable) pixels 0 (le_refl 0)
  · intro p _
    obtain ⟨m, hm, hm0, hm5⟩ :=
      generate_line_mask_bound 100 171 screwTable p.2 p.1
    refine ⟨(ideal p.2 p.1 - 0 - m) * (ideal p.2 p.1 - 0 - m), ?_,
      mul_self_nonneg _, ?_⟩
    · unfold scoreAddend
      show fpow2 (fsub (fsub (.fin (ideal p.2 p.1)) (.fin 0)) _) = _
      rw [hm, fsub_fin_fin, fsub_fin_fin, fpow2_fin]
    · obtain ⟨h0, h1⟩ := hideal p.2 p.1
      nlinarith
  · rw [pixels_length]
    norm_num [SIZE]

/-- C3: over accepted iterations the loss is non-increasing up to the
tolerance `T = 1/2` -- including the first accepted chord relative to the
loss of the all-zero working grid.  The first step is bounded because the
program's anchor table contains the vertical pair `(100, 171)`, whose
degenerate all-zero mask scores exactly the current loss, so the minimum the
sort selects can be no worse. -/
theorem c3_monotone_loss (ideal : ℕ → ℕ → ℚ)
    (hideal : ∀ y x, 0 ≤ ideal y x ∧ ideal y x ≤ 1) (n : ℕ) :
    lossStepOK ideal screwTable n = true := by
  unfold lossStepOK
  cases hst : step ideal screwTable (run ideal screwTable n) with
  | halt => rfl
  | panicked => rfl
  | accept c s' =>
    obtain ⟨j, t, hht, hjm, hceq, hsc, himg, hcurj, hacount⟩ :=
      step_accept _ _ _ _ _ hst
    show fleB (totalLoss ideal s'.image)
      (fadd (totalLoss ideal (run ideal screwTable n).image) (.fin (1 / 2)))
      = true
    have himage : ∀ y x, ∃ q : ℚ, 0 ≤ q ∧
        (run ideal screwTable n).image y x = .fin q :=
      fun y x => run_image_fin ideal screwTable n y x
    have hskip : (score (run ideal screwTable n).oldCloseness ideal
        (run ideal screwTable n).image
        (generate_line_mask (run ideal screwTable n).current j
          screwTable)).skip = false := by
      rw [hsc]
    have hplain := score_closeness_eq_plain _ _ _ _ hskip
    have hclose : (score (run ideal screwTable n).oldCloseness ideal
        (run ideal screwTable n).image
        (generate_line_mask (run ideal screwTable n).current j
          screwTable)).closeness = s'.oldCloseness := by
      rw [hsc]
    have hLoss : totalLoss ideal s'.image = s'.oldCloseness := by
      rw [himg, ← plainScore_eq_totalLoss_add ideal
        (run ideal screwTable n).image (run ideal screwTable n).current j
        screwTable himage, ← hplain, hclose]
    rw [hLoss]
    obtain ⟨qL, hqL, hqL0⟩ :=
      totalLoss_fin ideal (run ideal screwTable n).image himage
    obtain ⟨q', hq'fin, hq'0⟩ : ∃ q' : ℚ, s'.oldCloseness = .fin q' ∧ 0 ≤ q' := by
      obtain ⟨qp, hqp, hqp0⟩ := plainScore_fin ideal
        (run ideal screwTable n).image
        (generate_line_mask (run ideal screwTable n).current j screwTable)
        himage
        (fun y x => by
          obtain ⟨m, hm, _, _⟩ := generate_line_mask_bound
            (run ideal screwTable n).current j screwTable y x
          exact ⟨m, hm⟩)
      exact ⟨qp, by rw [← hclose, hplain, hqp], hqp0⟩
    rw [hq'fin, hqL, fadd_fin_fin, fleB_fin_fin]
    by_cases hcnt : (run ideal screwTable n).accepted = 0
    · have hinit := run_eq_init_of_accepted_eq_zero ideal screwTable n hcnt
      have hsk171 : (score (.fin 100000) ideal initialState.image
          (generate_line_mask 100 171 screwTable)).skip = false :=
        initial_vertical_pushed ideal hideal
      have hj171 : (171 : ℕ) ∈ candidates 100 := by decide
      have hmem171 := permutations_mem_of ideal screwTable initialState.image
        (.fin 100000) 100 171 hj171 hsk171
      rw [hinit] at hht
      have hfin := permutations_closeness_fin ideal screwTable
        initialState.image (.fin 100000) 100 (fun y x => ⟨0, le_refl 0, rfl⟩)
      have hmin := sortPerms_head_min
        (permutations ideal screwTable initialState.image (.fin 100000) 100)
        hfin (initialState.current, j, s'.oldCloseness) t hht
      have hle := hmin _ hmem171
      have hc171 : (score (.fin 100000) ideal initialState.image
          (generate_line_mask 100 171 screwTable)).closeness
          = totalLoss ideal initialState.image := by
        rw [score_closeness_eq_plain _ _ _ _ hsk171]
        exact plainScore_vertical ideal initialState.image 100 171 screwTable
          rfl (fun y x => ⟨0, le_refl 0, rfl⟩)
      rw [hinit] at hqL
      rw [hc171, hq'fin, hqL, fleB_fin_fin] at hle
      simp only [decide_eq_true_eq] at hle ⊢
      linarith
    · have h1 : 1 ≤ (run ideal screwTable n).accepted :=
        Nat.one_le_iff_ne_zero.mpr hcnt
      have hinv := run_oldCloseness_eq_totalLoss ideal screwTable n h1
      have hchk := score_final_check _ _ _ _ hskip
      rw [hclose, hinv, hqL, hq'fin, fsub_fin_fin] at hchk
      unfold DELTA_DIFF_THRESHOLD at hchk
      rw [fltB_fin_fin] at hchk
      simp only [decide_eq_false_iff_not, not_lt] at hchk
      simp only [decide_eq_true_eq]
      linarith

theorem c3_monotone_loss_witness : lossStepOK allZeroIdeal screwTable 0 = true :=
  c3_monotone_loss allZeroIdeal
    (fun _ _ => ⟨le_refl 0, by norm_num [allZeroIdeal]⟩) 0

end StringArt
